import Mathlib

/-!
Verification of the grid-pathfinding core of the terrain-pathfinding repository:
the binary min-heap (`src/util/util.ts`), the bridging A* pathfinder and the
Prim MST builder (`src/util/grid2DUtil.ts`), the incremental MST update
(`src/MSTRoads.tsx`) and the prioritized space-time multi-agent planner
(`src/MultiAgent.tsx`), embedded shallowly as executable Lean definitions.
Search loops are written with an explicit fuel parameter; the top-level
entry points supply a fuel that provably dominates the loop's decreasing
measure, so the embeddings compute exactly what the source loops compute.
-/

namespace TerrainPath

/-- `Point2D` from `grid2DUtil.ts`: integer grid coordinates. -/
structure Point2D where
  x : Int
  y : Int
deriving DecidableEq, Repr

/-- `TileType` from `grid2DUtil.ts`. -/
inductive TileType : Type where
  | Stone | Grass | Water
deriving DecidableEq, Repr

/-- `MapTile` from `grid2DUtil.ts`; `tileType` and `walkable` are optional
fields in the source, so they are `Option`-valued here (a missing `walkable`
is falsy in the source's `!grid[y][x].walkable` test). -/
structure MapTile where
  gridCoordinates : Point2D
  tileType : Option TileType
  walkable : Option Bool
deriving DecidableEq, Repr

/-- A grid is a list of rows of tiles, indexed `grid[y][x]` as in the source. -/
abbrev Grid := List (List MapTile)

/-- `grid[0].length` — the width used by the source's bounds checks. -/
def gridW (grid : Grid) : Nat := (grid.headD []).length

/-- `grid.length` — the height used by the source's bounds checks. -/
def gridH (grid : Grid) : Nat := grid.length

/-- Tile lookup `grid[y][x]`. -/
def tileAt (grid : Grid) (x y : Int) : Option MapTile :=
  (grid[y.toNat]?).bind (fun row => row[x.toNat]?)

/-- The source's walkability test `grid[y][x].walkable` (falsy when absent). -/
def walkableAt (grid : Grid) (x y : Int) : Bool :=
  ((tileAt grid x y).bind (fun t => t.walkable)).getD false

/-- `manhatten` from `grid2DUtil.ts`: Manhattan distance heuristic. -/
def manhatten (x1 x2 y1 y2 : Int) : Nat :=
  (x1 - x2).natAbs + (y1 - y2).natAbs

/-! ## The binary min-heap of `src/util/util.ts` -/

/-- Parent index in the array-backed binary heap: `(idx - 1) / 2`. -/
def hpar (i : Nat) : Nat := (i - 1) / 2

/-- The `bubbleUp` loop of `MinHeap`: repeatedly swap the entry at `idx` with
its parent while it has strictly smaller priority.  The loop index strictly
decreases, so fuel `idx` always suffices. -/
def bubbleUpGo {α : Type} : Nat → List (Nat × α) → Nat → List (Nat × α)
  | 0, l, _ => l
  | fuel + 1, l, idx =>
    if idx = 0 then l
    else
      match l[idx]?, l[hpar idx]? with
      | some e, some p =>
        if p.1 ≤ e.1 then l
        else bubbleUpGo fuel ((l.set idx p).set (hpar idx) e) (hpar idx)
      | _, _ => l

/-- The `bubbleDown` loop of `MinHeap`: sift the entry at `idx` down, swapping
with the smaller-priority child exactly as the source's `swapIdx` logic does.
The index strictly increases and stays below the length, so fuel `length`
always suffices. -/
def bubbleDownGo {α : Type} : Nat → List (Nat × α) → Nat → List (Nat × α)
  | 0, l, _ => l
  | fuel + 1, l, idx =>
    match l[idx]?, l[2 * idx + 1]?, l[2 * idx + 2]? with
    | some e, some cl, some cr =>
      if cl.1 < e.1 then
        if cr.1 < cl.1 then bubbleDownGo fuel ((l.set idx cr).set (2 * idx + 2) e) (2 * idx + 2)
        else bubbleDownGo fuel ((l.set idx cl).set (2 * idx + 1) e) (2 * idx + 1)
      else
        if cr.1 < e.1 then bubbleDownGo fuel ((l.set idx cr).set (2 * idx + 2) e) (2 * idx + 2)
        else l
    | some e, some cl, none =>
      if cl.1 < e.1 then bubbleDownGo fuel ((l.set idx cl).set (2 * idx + 1) e) (2 * idx + 1)
      else l
    | _, _, _ => l

/-- `MinHeap` from `src/util/util.ts`: an array of `{priority, item}` entries. -/
structure MinHeap (α : Type) where
  data : List (Nat × α)

/-- A freshly constructed heap (`private data = []`). -/
def MinHeap.emptyHeap {α : Type} : MinHeap α := ⟨[]⟩

/-- `push(item, priority)`: append and bubble up from the last index. -/
def MinHeap.push {α : Type} (hp : MinHeap α) (item : α) (priority : Nat) : MinHeap α :=
  ⟨bubbleUpGo hp.data.length (hp.data ++ [(priority, item)]) hp.data.length⟩

/-- `pop()`: return the root item; move the last entry to the root and bubble
down (or just empty the array when only one entry remained). -/
def MinHeap.pop {α : Type} (hp : MinHeap α) : Option α × MinHeap α :=
  match hp.data with
  | [] => (none, hp)
  | e :: rest =>
    match rest with
    | [] => (some e.2, ⟨[]⟩)
    | r :: rs =>
      (some e.2,
        ⟨bubbleDownGo (r :: rs).length
          ((e :: r :: rs).dropLast.set 0 ((r :: rs).getLast (by simp))) 0⟩)

/-- `isEmpty()`. -/
def MinHeap.isEmpty {α : Type} (hp : MinHeap α) : Bool := hp.data.isEmpty

/-! ## The bridging A* pathfinder (`findPathAStar`, `grid2DUtil.ts`) -/

/-- `NodeAStar` from `grid2DUtil.ts` (bridging variant): coordinates, costs,
an optional parent link for path reconstruction, and the bridge counter. -/
inductive NodeA : Type where
  | mk (x : Int) (y : Int) (g : Nat) (h : Nat) (f : Nat)
      (parent : Option NodeA) (bridgesUsed : Nat)

def NodeA.x : NodeA → Int
  | .mk x _ _ _ _ _ _ => x

def NodeA.y : NodeA → Int
  | .mk _ y _ _ _ _ _ => y

def NodeA.g : NodeA → Nat
  | .mk _ _ g _ _ _ _ => g

def NodeA.h : NodeA → Nat
  | .mk _ _ _ h _ _ _ => h

def NodeA.f : NodeA → Nat
  | .mk _ _ _ _ f _ _ => f

def NodeA.parent? : NodeA → Option NodeA
  | .mk _ _ _ _ _ p _ => p

def NodeA.bridgesUsed : NodeA → Nat
  | .mk _ _ _ _ _ _ b => b

/-- Path reconstruction: follow parent links from a node back to the root,
collecting coordinates front-to-back (the source `unshift`s while walking). -/
def NodeA.trace : NodeA → List Point2D
  | .mk x y _ _ _ none _ => [⟨x, y⟩]
  | .mk x y _ _ _ (some p) _ => p.trace ++ [⟨x, y⟩]

/-- The `(x, y, bridgesUsed)` key used for `nodeMap` and `closedSet`. -/
abbrev AKey := Int × Int × Nat

/-- The key of a node. -/
def nkey (n : NodeA) : AKey := (n.x, n.y, n.bridgesUsed)

/-- `nodeMap.get`: the binding of `k`, if any. -/
def assocGet {β : Type} (m : List (AKey × β)) (k : AKey) : Option β :=
  (m.find? (fun e => decide (e.1 = k))).map (fun e => e.2)

/-- `nodeMap.set`: (re)bind `k`; lookups see the new binding, all other keys
are untouched. -/
def assocSet {β : Type} (m : List (AKey × β)) (k : AKey) (v : β) : List (AKey × β) :=
  (k, v) :: m.filter (fun e => decide (¬ e.1 = k))

/-- Stable insertion: place `a` before the first element `b` with
`le a b` (so after all earlier elements it ties with). -/
def sortInsert {α : Type} (le : α → α → Bool) (a : α) : List α → List α
  | [] => [a]
  | b :: l => if le a b then a :: b :: l else b :: sortInsert le a l

/-- A stable sort.  JavaScript's `Array.prototype.sort` is stable, and a
stable sort with respect to a total preorder has a unique result, so this
models the source's comparator-based sorts exactly. -/
def stableSort {α : Type} (le : α → α → Bool) : List α → List α
  | [] => []
  | a :: l => sortInsert le a (stableSort le l)

/-- The neighbour list generated for a popped node, in source order. -/
def neighborsOf (cx cy : Int) : List Point2D :=
  [⟨cx + 1, cy⟩, ⟨cx - 1, cy⟩, ⟨cx, cy + 1⟩, ⟨cx, cy - 1⟩]

/-- The update test `!existing || g < existing.g` of the neighbour loop. -/
def betterThan (m : List (AKey × NodeA)) (k : AKey) (g : Nat) : Bool :=
  match assocGet m k with
  | none => true
  | some ex => decide (g < ex.g)

/-- The body of the `for (const {x, y} of neighbors)` loop of `findPathAStar`:
filter out-of-bounds cells, compute the bridge count and step cost, skip
closed or over-budget states, and push an improved node. -/
def relaxNeighbor (grid : Grid) (endP : Point2D) (bridgeSteps bridgeCost : Nat)
    (closed : List AKey) (current : NodeA)
    (acc : MinHeap NodeA × List (AKey × NodeA)) (p : Point2D) :
    MinHeap NodeA × List (AKey × NodeA) :=
  if p.x < 0 ∨ (gridW grid : Int) ≤ p.x ∨ p.y < 0 ∨ (gridH grid : Int) ≤ p.y then acc
  else
    let isWalk := walkableAt grid p.x p.y
    let nextB := if isWalk then current.bridgesUsed else current.bridgesUsed + 1
    if bridgeSteps < nextB then acc
    else
      let nk : AKey := (p.x, p.y, nextB)
      if nk ∈ closed then acc
      else
        let stepCost := if isWalk then 1 else bridgeCost
        let g := current.g + stepCost
        let h := manhatten p.x endP.x p.y endP.y
        let f := g + h
        if betterThan acc.2 nk g then
          let node := NodeA.mk p.x p.y g h f (some current) nextB
          (acc.1.push node f, assocSet acc.2 nk node)
        else acc

/-- The `while (!openSet.isEmpty())` loop of `findPathAStar`: pop the entry of
minimum `f`, skip it if its state is closed, close it, stop at the goal, and
otherwise relax the four neighbours.  `fuel` dominates the loop's decreasing
measure (see `astarFuel`), so the entry point never runs out. -/
def astarGo (grid : Grid) (endP : Point2D) (bridgeSteps bridgeCost : Nat) :
    Nat → MinHeap NodeA → List AKey → List (AKey × NodeA) → Option NodeA
  | 0, _, _, _ => none
  | fuel + 1, openSet, closed, nmap =>
    match MinHeap.pop openSet with
    | (none, _) => none
    | (some current, openSet1) =>
      let ck : AKey := (current.x, current.y, current.bridgesUsed)
      if ck ∈ closed then astarGo grid endP bridgeSteps bridgeCost fuel openSet1 closed nmap
      else
        let closed1 := ck :: closed
        if current.x = endP.x ∧ current.y = endP.y then some current
        else
          let acc := (neighborsOf current.x current.y).foldl
            (relaxNeighbor grid endP bridgeSteps bridgeCost closed1 current) (openSet1, nmap)
          astarGo grid endP bridgeSteps bridgeCost fuel acc.1 closed1 acc.2

/-- Fuel that dominates the A* loop measure
`6 * (#states − #closed) + #heap entries`: there are at most
`W * H * (budget + 1)` in-bounds states plus possibly the start state. -/
def astarFuel (grid : Grid) (bridgeSteps : Nat) : Nat :=
  6 * (gridW grid * gridH grid * (bridgeSteps + 1) + 1) + 1

/-- `findPathAStar` up to (but not including) path reconstruction: the goal
node whose parent chain the source unwinds, if the search succeeds. -/
def findPathAStarNode (grid : Grid) (start endP : Point2D)
    (bridgeSteps bridgeCost : Nat) : Option NodeA :=
  let heuristic := manhatten start.x endP.x start.y endP.y
  let startNode := NodeA.mk start.x start.y 0 heuristic heuristic none 0
  let openSet := (MinHeap.emptyHeap : MinHeap NodeA).push startNode startNode.f
  let nmap := assocSet [] (start.x, start.y, 0) startNode
  astarGo grid endP bridgeSteps bridgeCost (astarFuel grid bridgeSteps) openSet [] nmap

/-- `findPathAStar(grid, start, end, bridgeSteps = 0, bridgeCost = 0)` from
`grid2DUtil.ts` (the bridging, `MinHeap`-based variant). -/
def findPathAStar (grid : Grid) (start endP : Point2D)
    (bridgeSteps bridgeCost : Nat) : Option (List Point2D) :=
  (findPathAStarNode grid start endP bridgeSteps bridgeCost).map NodeA.trace

/-! ## The Prim MST builder (`findMST`, `grid2DUtil.ts`) -/

/-- `Edge` from `grid2DUtil.ts` (`from`/`to` are Lean keywords, hence
`efrom`/`eto`). -/
structure Edge where
  efrom : Nat
  eto : Nat
  cost : Nat
  path : List Point2D
deriving DecidableEq, Repr

/-- `MSTResult` from `grid2DUtil.ts` (second, point-valued variant). -/
structure MSTResult where
  paths : List (List Point2D)
  connectedPoints : List Point2D
  disconnectedPoints : List Point2D
deriving DecidableEq, Repr

/-- The pairwise-shortest-path edge list of `findMST`: for every `i < j`, an
edge of cost `path.length` whenever A* finds a path between the points. -/
def mstEdges (map : Grid) (points : List Point2D) (ba bc : Nat) : List Edge :=
  (List.range points.length).flatMap (fun i =>
    (List.range points.length).filterMap (fun j =>
      if i < j then
        match findPathAStar map (points.getD i ⟨0, 0⟩) (points.getD j ⟨0, 0⟩) ba bc with
        | some path => some ⟨i, j, path.length, path⟩
        | none => none
      else none))

/-- A JS `Set<number>` built by `add`: a duplicate-free list in insertion
order. -/
def setAdd (s : List Nat) (x : Nat) : List Nat :=
  if x ∈ s then s else s ++ [x]

/-- An edge crossing the cut between the tree and the rest. -/
def crossing (inMST : List Nat) (e : Edge) : Prop :=
  (e.efrom ∈ inMST ∧ e.eto ∉ inMST) ∨ (e.eto ∈ inMST ∧ e.efrom ∉ inMST)

instance crossingDec (inMST : List Nat) (e : Edge) : Decidable (crossing inMST e) :=
  decidable_of_iff
    ((e.efrom ∈ inMST ∧ e.eto ∉ inMST) ∨ (e.eto ∈ inMST ∧ e.efrom ∉ inMST)) Iff.rfl

/-- One step of the `for (const e of edges)` selection in Prim's loop. -/
def pbf (inMST : List Nat) (best : Option Edge) (e : Edge) : Option Edge :=
  if crossing inMST e then
    match best with
    | none => some e
    | some b => if e.cost < b.cost then some e else b
  else best

/-- The inner `for (const e of edges)` selection of Prim's loop: the first
minimum-cost edge joining a tree-internal index to a tree-external one. -/
def pickBestEdge (inMST : List Nat) (edges : List Edge) : Option Edge :=
  edges.foldl (pbf inMST) none

/-- Two point indices are joined when some precomputed A* edge joins them
(in either orientation). -/
def edgeRel (edges : List Edge) (u v : Nat) : Prop :=
  ∃ e ∈ edges, (e.efrom = u ∧ e.eto = v) ∨ (e.efrom = v ∧ e.eto = u)

/-- The `while (inMST.size < numPoints)` loop of `findMST`.  Each productive
iteration grows `inMST` by exactly one index, so fuel `numPoints` always
suffices. -/
def primGo (edges : List Edge) (numPoints : Nat) :
    Nat → List Nat → List Edge → List Nat × List Edge
  | 0, inMST, mstE => (inMST, mstE)
  | fuel + 1, inMST, mstE =>
    if inMST.length < numPoints then
      match pickBestEdge inMST edges with
      | none => (inMST, mstE)
      | some best =>
        primGo edges numPoints fuel (setAdd (setAdd inMST best.efrom) best.eto) (mstE ++ [best])
    else (inMST, mstE)

/-- `findMST(map, points, bridgeAllowance = 0, bridgeCost = 1)` from
`grid2DUtil.ts`: pairwise A* edges, Prim from index 0, and the
connected/disconnected split of the input points. -/
def findMST (map : Grid) (points : List Point2D) (bridgeAllowance bridgeCost : Nat) :
    MSTResult :=
  if points.length < 2 then ⟨[], [], []⟩
  else
    let numPoints := points.length
    let edges := mstEdges map points bridgeAllowance bridgeCost
    let result := primGo edges numPoints numPoints [0] []
    let disconnected :=
      ((List.range numPoints).filter (fun i => decide (i ∉ result.1))).map
        (fun i => points.getD i ⟨0, 0⟩)
    ⟨result.2.map (fun e => e.path),
     result.1.map (fun i => points.getD i ⟨0, 0⟩),
     disconnected⟩

/-! ## The incremental MST update (`updateMSTWithNewPoint`, `MSTRoads.tsx`) -/

/-- The `{ paths, disconnectedPOIs }` record threaded through
`updateMSTWithNewPoint`. -/
structure MSTUpdate where
  paths : List (List Point2D)
  disconnectedPOIs : List Point2D
deriving DecidableEq, Repr

/-- A `{ cost, path }` candidate connection. -/
structure Cand where
  cost : Nat
  path : List Point2D
deriving DecidableEq, Repr

/-- `updateMSTWithNewPoint` from `MSTRoads.tsx`: shortest paths from the new
point to every previously existing point, stably sorted by cost; append the
cheapest to the tree, or mark the new point disconnected when none exists. -/
def updateMSTWithNewPoint (map : Grid) (currentPoints : List Point2D)
    (newPoint : Point2D) (currentMST : MSTUpdate) (bridgeAllowance bridgeCost : Nat) :
    MSTUpdate :=
  let candidates := currentPoints.filterMap (fun existing =>
    match findPathAStar map newPoint existing bridgeAllowance bridgeCost with
    | some path => some (⟨path.length, path⟩ : Cand)
    | none => none)
  let sorted := stableSort (fun a b => decide (a.cost ≤ b.cost)) candidates
  match sorted.head? with
  | none => ⟨currentMST.paths, currentMST.disconnectedPOIs ++ [newPoint]⟩
  | some best =>
    ⟨currentMST.paths ++ [best.path],
     currentMST.disconnectedPOIs.filter
       (fun p => decide (¬ (p.x = newPoint.x ∧ p.y = newPoint.y)))⟩

/-- The insertion pipeline the spec describes: build the MST of the first two
points one-shot, then add each remaining point with
`updateMSTWithNewPoint` against all previously existing points. -/
def incrementalMST (map : Grid) (points : List Point2D) (ba bc : Nat) : MSTUpdate :=
  match points with
  | p0 :: p1 :: rest =>
    let m0 := findMST map [p0, p1] ba bc
    (rest.foldl
      (fun acc p => (acc.1 ++ [p], updateMSTWithNewPoint map acc.1 p acc.2 ba bc))
      (([p0, p1], ⟨m0.paths, m0.disconnectedPoints⟩) :
        List Point2D × MSTUpdate)).2
  | _ => ⟨[], []⟩

/-! ## The prioritized space-time planner (`MultiAgent.tsx`) -/

/-- `SpaceTimeNode` from `MultiAgent.tsx`. -/
inductive SpaceTimeNode : Type where
  | mk (x : Int) (y : Int) (t : Nat) (g : Nat) (f : Nat) (parent : Option SpaceTimeNode)

def SpaceTimeNode.x : SpaceTimeNode → Int
  | .mk x _ _ _ _ _ => x

def SpaceTimeNode.y : SpaceTimeNode → Int
  | .mk _ y _ _ _ _ => y

def SpaceTimeNode.t : SpaceTimeNode → Nat
  | .mk _ _ t _ _ _ => t

def SpaceTimeNode.g : SpaceTimeNode → Nat
  | .mk _ _ _ g _ _ => g

def SpaceTimeNode.f : SpaceTimeNode → Nat
  | .mk _ _ _ _ f _ => f

/-- Reconstructed timeline of positions, root first. -/
def SpaceTimeNode.stTrace : SpaceTimeNode → List Point2D
  | .mk x y _ _ _ none => [⟨x, y⟩]
  | .mk x y _ _ _ (some p) => p.stTrace ++ [⟨x, y⟩]

/-- `isWalkable` from `MultiAgent.tsx`:
`tile.tileType && tileType !== "Water" && tileType !== "Stone"`. -/
def isWalkableTile (tile : MapTile) : Bool :=
  match tile.tileType with
  | none => false
  | some tt => decide (tt ≠ TileType.Water ∧ tt ≠ TileType.Stone)

/-- Direct tile access `map[y][x]` (out-of-bounds yields a tile with no
type, which every walkability test rejects). -/
def tileAtD (map : Grid) (x y : Int) : MapTile :=
  (tileAt map x y).getD ⟨⟨0, 0⟩, none, none⟩

/-- `neighbors4` from `MultiAgent.tsx`, in source push order. -/
def neighbors4 (x y : Int) (w h : Nat) : List Point2D :=
  (if 0 < x then [⟨x - 1, y⟩] else []) ++
  (if x < (w : Int) - 1 then [⟨x + 1, y⟩] else []) ++
  (if 0 < y then [⟨x, y - 1⟩] else []) ++
  (if y < (h : Int) - 1 then [⟨x, y + 1⟩] else [])

/-- Manhattan distance on points (`manhattan` in `MultiAgent.tsx`). -/
def manhattanP (a b : Point2D) : Nat :=
  (a.x - b.x).natAbs + (a.y - b.y).natAbs

/-- The reservation tables: per-timestep occupied vertices and directed
edges, as flat `(t, …)` membership sets. -/
structure Reservations where
  vertex : List (Nat × Int × Int)
  edge : List (Nat × Int × Int × Int × Int)
deriving DecidableEq, Repr

/-- `cloneReservations()`: a fresh, empty table. -/
def cloneReservations : Reservations := ⟨[], []⟩

def reserveVertex (res : Reservations) (t : Nat) (x y : Int) : Reservations :=
  ⟨res.vertex ++ [(t, x, y)], res.edge⟩

def reserveEdge (res : Reservations) (t : Nat) (ax ay bx byv : Int) : Reservations :=
  ⟨res.vertex, res.edge ++ [(t, ax, ay, bx, byv)]⟩

def isReserved (res : Reservations) (t : Nat) (x y : Int) : Bool :=
  decide ((t, x, y) ∈ res.vertex)

def isEdgeReserved (res : Reservations) (t : Nat) (ax ay bx byv : Int) : Bool :=
  decide ((t, ax, ay, bx, byv) ∈ res.edge)

/-- Key of a space-time node: `(x, y, t)`. -/
def stKey (n : SpaceTimeNode) : Int × Int × Nat := (n.x, n.y, n.t)

/-- The planner's comparator: ascending `f`, ties broken by descending `g`
(`a.f - b.f || b.g - a.g`). -/
def stLe (a b : SpaceTimeNode) : Bool :=
  decide (a.f < b.f ∨ (a.f = b.f ∧ b.g ≤ a.g))

/-- `push` of `planPathWithReservations`: append the node, record its key,
and keep the open list sorted (the source stably re-sorts after each push). -/
def stPush (acc : List SpaceTimeNode × List (Int × Int × Nat)) (node : SpaceTimeNode) :
    List SpaceTimeNode × List (Int × Int × Nat) :=
  (stableSort stLe (acc.1 ++ [node]), acc.2 ++ [stKey node])

/-- The neighbour-relaxation of the space-time loop: skip unwalkable tiles,
vertex reservations at `t+1`, and opposite-direction edge reservations at
`t`; enqueue new `(x, y, t+1)` states not already closed or open. -/
def relaxST (map : Grid) (goal : Point2D) (res : Reservations)
    (cur : SpaceTimeNode) (closed1 : List (Int × Int × Nat))
    (acc : List SpaceTimeNode × List (Int × Int × Nat)) (nb : Point2D) :
    List SpaceTimeNode × List (Int × Int × Nat) :=
  let tNext := cur.t + 1
  if ¬ isWalkableTile (tileAtD map nb.x nb.y) then acc
  else if isReserved res tNext nb.x nb.y then acc
  else if isEdgeReserved res cur.t nb.x nb.y cur.x cur.y then acc
  else
    let g := cur.g + 1
    let hCost := manhattanP nb goal
    let node := SpaceTimeNode.mk nb.x nb.y tNext g (g + hCost) (some cur)
    if stKey node ∈ closed1 ∨ stKey node ∈ acc.2 then acc else stPush acc node

/-- The main loop of `planPathWithReservations`: pop the front of the sorted
open list, close its `(x, y, t)` state, accept the goal at any `t ≤ horizon`
(padding the returned path with the goal cell through the horizon), and
otherwise try the WAIT move and the four neighbour moves. -/
def planGo (map : Grid) (goal : Point2D) (res : Reservations) (horizon : Nat) :
    Nat → List SpaceTimeNode → List (Int × Int × Nat) → List (Int × Int × Nat) →
    Option (List Point2D)
  | 0, _, _, _ => none
  | fuel + 1, openL, openKeys, closed =>
    match openL with
    | [] => none
    | cur :: openRest =>
      let openKeys1 := openKeys.erase (stKey cur)
      if stKey cur ∈ closed then planGo map goal res horizon fuel openRest openKeys1 closed
      else
        let closed1 := stKey cur :: closed
        if cur.x = goal.x ∧ cur.y = goal.y then
          let path := cur.stTrace
          some (path ++ List.replicate (horizon + 1 - path.length) ⟨goal.x, goal.y⟩)
        else
          let tNext := cur.t + 1
          if horizon < tNext then planGo map goal res horizon fuel openRest openKeys1 closed1
          else
            let waitOK :=
              ¬ isReserved res tNext cur.x cur.y ∧ isWalkableTile (tileAtD map cur.x cur.y)
            let accW :=
              if waitOK then
                let g := cur.g + 1
                let hCost := manhattanP ⟨cur.x, cur.y⟩ goal
                let node := SpaceTimeNode.mk cur.x cur.y tNext g (g + hCost) (some cur)
                if stKey node ∈ closed1 ∨ stKey node ∈ openKeys1 then (openRest, openKeys1)
                else stPush (openRest, openKeys1) node
              else (openRest, openKeys1)
            let accN := (neighbors4 cur.x cur.y (gridW map) (gridH map)).foldl
              (relaxST map goal res cur closed1) accW
            planGo map goal res horizon fuel accN.1 accN.2 closed1

/-- Fuel dominating the space-time loop measure. -/
def planFuel (map : Grid) (horizon : Nat) : Nat :=
  6 * (gridW map * gridH map * (horizon + 1) + 1) + 1

/-- `planPathWithReservations(map, start, goal, baseReservations, horizon)`
from `MultiAgent.tsx`. -/
def planPathWithReservations (map : Grid) (start goal : Point2D)
    (baseReservations : Reservations) (horizon : Nat) : Option (List Point2D) :=
  let h0 := manhattanP start goal
  let startNode := SpaceTimeNode.mk start.x start.y 0 0 h0 none
  planGo map goal baseReservations horizon (planFuel map horizon)
    [startNode] [stKey startNode] []

/-- The per-path part of `buildReservationsFromPaths`: reserve each visited
vertex at its time, each traversed directed edge, and the final position for
every remaining timestep up to the horizon. -/
def reservePath (horizon : Nat) (res : Reservations) (path : List Point2D) : Reservations :=
  (List.range path.length).foldl (fun r t =>
    let pos := path.getD t ⟨0, 0⟩
    let r1 := reserveVertex r t pos.x pos.y
    let r2 :=
      if t < path.length - 1 then
        let next := path.getD (t + 1) ⟨0, 0⟩
        reserveEdge r1 t pos.x pos.y next.x next.y
      else r1
    if t = path.length - 1 then
      (List.range' (t + 1) (horizon - t)).foldl
        (fun r3 u => reserveVertex r3 u pos.x pos.y) r2
    else r2) res

/-- `buildReservationsFromPaths(paths)` from `MultiAgent.tsx`. -/
def buildReservationsFromPaths (paths : List (List Point2D)) : Reservations :=
  let horizon := paths.foldl (fun m p => max m (p.length - 1)) 0
  paths.foldl (reservePath horizon) cloneReservations

/-- An agent as the planner sees it: optional start and goal. -/
structure AgentST where
  start : Option Point2D
  goal : Option Point2D
deriving DecidableEq, Repr

/-- The planning loop of `play()` in `MultiAgent.tsx`: agents are processed
strictly in list order; each successfully planned path is committed and the
reservation table rebuilt from all committed paths before the next agent
plans.  Returns the per-agent outcome in order. -/
def planAgents (map : Grid) (agents : List AgentST) (horizon : Nat) :
    List (Option (List Point2D)) :=
  (agents.foldl (fun acc a =>
    match a.start, a.goal with
    | some s, some g =>
      match planPathWithReservations map s g acc.2 horizon with
      | none => (acc.1 ++ [none], acc.2)
      | some p =>
        (acc.1 ++ [some p], buildReservationsFromPaths (acc.1.filterMap id ++ [p]))
    | _, _ => (acc.1 ++ [none], acc.2))
    (([], cloneReservations) : List (Option (List Point2D)) × Reservations)).1

/-! ## Specification-level path predicates -/

/-- `0 ≤ x < width ∧ 0 ≤ y < height`, the source's bounds test. -/
def inBoundsB (grid : Grid) (p : Point2D) : Bool :=
  decide (0 ≤ p.x ∧ p.x < (gridW grid : Int) ∧ 0 ≤ p.y ∧ p.y < (gridH grid : Int))

/-- Two cells are 4-adjacent: Manhattan distance exactly 1. -/
def adjacentB (p q : Point2D) : Bool :=
  decide ((p.x - q.x).natAbs + (p.y - q.y).natAbs = 1)

/-- Consecutive elements are 4-adjacent. -/
def chainAdjB : List Point2D → Bool
  | [] => true
  | [_] => true
  | a :: b :: rest => adjacentB a b && chainAdjB (b :: rest)

/-- The cost of stepping into `q`: `1` on a walkable tile, `bridgeCost` on an
unwalkable one. -/
def stepPrice (grid : Grid) (bridgeCost : Nat) (q : Point2D) : Nat :=
  if walkableAt grid q.x q.y then 1 else bridgeCost

/-- Total cost of a path: the sum of the step costs into every cell after
the first. -/
def pathCost (grid : Grid) (bridgeCost : Nat) (p : List Point2D) : Nat :=
  ((p.drop 1).map (stepPrice grid bridgeCost)).sum

/-- Number of bridge steps of a path: unwalkable cells after the first. -/
def bridgesOn (grid : Grid) (p : List Point2D) : Nat :=
  (p.drop 1).countP (fun q => ! walkableAt grid q.x q.y)

/-- A path the bridging pathfinder may legitimately return: starts at
`start`, ends at `endP`, moves 4-adjacently, stays in bounds after the first
cell, and bridges at most `bridgeSteps` unwalkable cells. -/
def validPathB (grid : Grid) (bridgeSteps : Nat) (start endP : Point2D)
    (p : List Point2D) : Bool :=
  decide (p.head? = some start) && decide (p.getLast? = some endP) &&
  chainAdjB p && (p.drop 1).all (inBoundsB grid) &&
  decide (bridgesOn grid p ≤ bridgeSteps)

/-- `x + y` increases by exactly one at every step. -/
def monoXYB : List Point2D → Bool
  | [] => true
  | [_] => true
  | a :: b :: rest => decide (a.x + a.y + 1 = b.x + b.y) && monoXYB (b :: rest)

/-- The `g` values along a node's parent chain, root first. -/
def chainG : NodeA → List Nat
  | .mk _ _ g _ _ none _ => [g]
  | .mk _ _ g _ _ (some p) _ => chainG p ++ [g]

/-- Every non-root node's parent has `g` less than or equal to its own. -/
def leParentGB : NodeA → Bool
  | .mk _ _ _ _ _ none _ => true
  | .mk _ _ g _ _ (some p) _ => decide (p.g ≤ g) && leParentGB p

/-- Every non-root node's parent has strictly smaller `g` — the claimed
invariant. -/
def strictParentGB : NodeA → Bool
  | .mk _ _ _ _ _ none _ => true
  | .mk _ _ g _ _ (some p) _ => decide (p.g < g) && strictParentGB p

/-- The parent chain is rooted at the start node (`g = 0`,
`bridgesUsed = 0`, the start coordinates, no parent). -/
def rootedAtB (start : Point2D) : NodeA → Bool
  | .mk x y g _ _ none b => decide (x = start.x ∧ y = start.y ∧ g = 0 ∧ b = 0)
  | .mk _ _ _ _ _ (some p) _ => rootedAtB start p

/-- In-bounds as a proposition on coordinates (the complement of the
source's skip test `x < 0 || x >= width || y < 0 || y >= height`). -/
def inBoundsI (grid : Grid) (x y : Int) : Prop :=
  0 ≤ x ∧ x < (gridW grid : Int) ∧ 0 ≤ y ∧ y < (gridH grid : Int)

/-- Well-formedness of a search node with respect to a search instance: its
parent chain starts at the start node, every link is a legal in-bounds
4-neighbour step, and `g`, `h`, `f` and `bridgesUsed` are exactly what the
relaxation computes along that chain. -/
def NodeOK (grid : Grid) (start endP : Point2D) (bridgeSteps bridgeCost : Nat) :
    NodeA → Prop
  | .mk x y g h f none b =>
      x = start.x ∧ y = start.y ∧ g = 0 ∧ b = 0 ∧
      h = manhatten x endP.x y endP.y ∧ f = g + h
  | .mk x y g h f (some p) b =>
      NodeOK grid start endP bridgeSteps bridgeCost p ∧
      adjacentB ⟨p.x, p.y⟩ ⟨x, y⟩ = true ∧
      inBoundsI grid x y ∧
      b = (if walkableAt grid x y then p.bridgesUsed else p.bridgesUsed + 1) ∧
      b ≤ bridgeSteps ∧
      g = p.g + (if walkableAt grid x y then 1 else bridgeCost) ∧
      h = manhatten x endP.x y endP.y ∧ f = g + h

/-! ## Heap invariants (specification-level) -/

/-- The binary-heap ordering invariant: every non-root entry's parent has a
smaller-or-equal priority. -/
def HeapInvL {α : Type} (l : List (Nat × α)) : Prop :=
  ∀ i p c, 0 < i → l[hpar i]? = some p → l[i]? = some c → p.1 ≤ c.1

/-- A heap that is ordered except possibly on the edge from `idx` to its
parent; additionally `idx`'s children (if any) dominate `idx`'s parent.
This is the state `bubbleUp` maintains while sifting `idx` up. -/
def AlmostUp {α : Type} (l : List (Nat × α)) (idx : Nat) : Prop :=
  (∀ i p c, 0 < i → i ≠ idx → l[hpar i]? = some p → l[i]? = some c → p.1 ≤ c.1) ∧
  (0 < idx → ∀ j gp c, (j = 2 * idx + 1 ∨ j = 2 * idx + 2) →
    l[hpar idx]? = some gp → l[j]? = some c → gp.1 ≤ c.1)

/-- A heap that is ordered except possibly on the edges from `idx` to its
children; additionally `idx`'s children (if any) dominate `idx`'s parent.
This is the state `bubbleDown` maintains while sifting `idx` down. -/
def AlmostDown {α : Type} (l : List (Nat × α)) (idx : Nat) : Prop :=
  (∀ i p c, 0 < i → hpar i ≠ idx → l[hpar i]? = some p → l[i]? = some c → p.1 ≤ c.1) ∧
  (0 < idx → ∀ j gp c, (j = 2 * idx + 1 ∨ j = 2 * idx + 2) →
    l[hpar idx]? = some gp → l[j]? = some c → gp.1 ≤ c.1)

/-- Heaps reachable from a fresh `MinHeap` by any sequence of `push` and
`pop` operations. -/
inductive HeapReachable {α : Type} : MinHeap α → Prop where
  | emptyHeap : HeapReachable MinHeap.emptyHeap
  | push (hp : MinHeap α) (a : α) (pr : Nat) :
      HeapReachable hp → HeapReachable (hp.push a pr)
  | pop (hp : MinHeap α) : HeapReachable hp → HeapReachable (hp.pop).2

/-- A concrete reachable heap used to witness the heap specification. -/
def heapEx : MinHeap Nat := ((MinHeap.emptyHeap : MinHeap Nat).push 10 5).push 20 3

/-- The cell of a search-state key. -/
def kcell (k : AKey) : Point2D := ⟨k.1, k.2.1⟩

/-- The bridge count of a search-state key. -/
def kb (k : AKey) : Nat := k.2.2

/-- A path that realizes the search state `k`: it runs from `start` to
`k`'s cell, takes legal in-bounds unit steps, and its bridge count is
exactly `k`'s (and within budget). -/
def ValidTo (grid : Grid) (start : Point2D) (bridgeSteps : Nat) (k : AKey)
    (p : List Point2D) : Prop :=
  p.head? = some start ∧ p.getLast? = some (kcell k) ∧ chainAdjB p = true ∧
  (p.drop 1).all (inBoundsB grid) = true ∧ bridgesOn grid p = kb k ∧ kb k ≤ bridgeSteps

/-- One legal expansion step between search states, exactly the guard the
neighbour loop enforces. -/
def LegalStep (grid : Grid) (bridgeSteps : Nat) (k k2 : AKey) : Prop :=
  adjacentB (kcell k) (kcell k2) = true ∧ inBoundsI grid (kcell k2).x (kcell k2).y ∧
  kb k2 = (if walkableAt grid (kcell k2).x (kcell k2).y then kb k else kb k + 1) ∧
  kb k2 ≤ bridgeSteps

/-- All keys the search can ever close: the start key plus every in-bounds
cell paired with a bridge count within budget. -/
def keyFinset (grid : Grid) (bs : Nat) (start : Point2D) : Finset AKey :=
  insert ((start.x, start.y, 0) : AKey)
    ((((Finset.range (gridW grid)) ×ˢ (Finset.range (gridH grid)) ×ˢ
        (Finset.range (bs + 1)))).image
      (fun t => (((t.1 : Nat) : Int), ((t.2.1 : Nat) : Int), t.2.2)))

/-- The A* loop invariant.  `closedOpt`'s cost bound additionally needs the
consistency condition `bs = 0 ∨ 1 ≤ bc` (with zero-cost bridges the
heuristic overestimates and closed states need not be optimal). -/
structure AStarInv (grid : Grid) (start endP : Point2D) (bs bc : Nat)
    (openS : MinHeap NodeA) (closed : List AKey)
    (nmap : List (AKey × NodeA)) : Prop where
  heap : HeapInvL openS.data
  entries : ∀ e ∈ openS.data, e.1 = e.2.f ∧ NodeOK grid start endP bs bc e.2
  mapOK : ∀ kn ∈ nmap, kn.1 = nkey kn.2 ∧ NodeOK grid start endP bs bc kn.2
  closedNodup : closed.Nodup
  closedValid : ∀ k ∈ closed, k ∈ keyFinset grid bs start
  closedNotGoal : ∀ k ∈ closed, ¬ ((kcell k).x = endP.x ∧ (kcell k).y = endP.y)
  sync : ∀ k n, k ∉ closed → assocGet nmap k = some n → (n.f, n) ∈ openS.data
  mapLB : ∀ e ∈ openS.data, ∃ m, assocGet nmap (nkey e.2) = some m ∧ m.g ≤ e.2.g
  startMap : ((start.x, start.y, 0) : AKey) ∉ closed →
    ∃ m, assocGet nmap ((start.x, start.y, 0) : AKey) = some m ∧ m.g = 0
  closedOpt : ∀ k ∈ closed, ∃ m, assocGet nmap k = some m ∧
    ((bs = 0 ∨ 1 ≤ bc) → ∀ p, ValidTo grid start bs k p → m.g ≤ pathCost grid bc p)
  closedExp : ∀ k ∈ closed, ∀ k2, LegalStep grid bs k k2 → k2 ∉ closed →
    ∃ m m2, assocGet nmap k = some m ∧ assocGet nmap k2 = some m2 ∧
      m2.g ≤ m.g + stepPrice grid bc (kcell k2)

/-- The heap-side part of the invariant threaded through the neighbour
fold. -/
structure MidInv (grid : Grid) (start endP : Point2D) (bs bc : Nat)
    (closed1 : List AKey) (acc : MinHeap NodeA × List (AKey × NodeA)) : Prop where
  heap : HeapInvL acc.1.data
  entries : ∀ e ∈ acc.1.data, e.1 = e.2.f ∧ NodeOK grid start endP bs bc e.2
  mapOK : ∀ kn ∈ acc.2, kn.1 = nkey kn.2 ∧ NodeOK grid start endP bs bc kn.2
  sync : ∀ k n, k ∉ closed1 → assocGet acc.2 k = some n → (n.f, n) ∈ acc.1.data
  mapLB : ∀ e ∈ acc.1.data, ∃ m, assocGet acc.2 (nkey e.2) = some m ∧ m.g ≤ e.2.g

/-! ## Concrete scenario grids -/

/-- A tile carrying only a walkability flag (as the A* demos build them). -/
def mkTile (w : Bool) : MapTile := ⟨⟨0, 0⟩, none, some w⟩

/-- A grid from a boolean walkability matrix. -/
def mkGrid (rows : List (List Bool)) : Grid := rows.map (fun r => r.map mkTile)

/-- A tile as the Perlin generator builds them: Grass is walkable, Water is
not. -/
def mkTileT (w : Bool) : MapTile :=
  ⟨⟨0, 0⟩, some (if w then TileType.Grass else TileType.Water), some w⟩

/-- A typed grid from a boolean walkability matrix. -/
def mkGridT (rows : List (List Bool)) : Grid := rows.map (fun r => r.map mkTileT)

/-- 5×5 all-walkable grid (spec scenario for C2). -/
def openGrid5 : Grid := mkGrid (List.replicate 5 (List.replicate 5 true))

/-- 1×3 grid `[walkable, wall, walkable]`: a solid wall separating the two
ends (spec scenario for C6, and the zero-cost-bridge scenario for C7). -/
def wallGrid : Grid := mkGrid [[true, false, true]]

/-- 4×3 grid on which budget monotonicity fails at `bridge_cost = 0`. -/
def budgetGrid : Grid :=
  mkGrid [[true, true, true, false], [true, false, false, false], [true, true, true, true]]

/-- 1×4 row `[walkable, wall, walkable, walkable]` for the MST
incremental/batch divergence. -/
def rowGrid4 : Grid := mkGrid [[true, false, true, true]]

/-- The three points of interest on `rowGrid4`: the first is cut off from
the other two by the wall. -/
def pts4 : List Point2D := [⟨0, 0⟩, ⟨2, 0⟩, ⟨3, 0⟩]

/-- 2×1 all-walkable grid with two points, to witness the MST theorems. -/
def rowGrid2 : Grid := mkGrid [[true, true]]

/-- Both cells of `rowGrid2` as points of interest. -/
def pts2 : List Point2D := [⟨0, 0⟩, ⟨1, 0⟩]

/-- 5×2 grid for the multi-agent scenario: the top row is walkable, the
bottom row only at `x = 3`. -/
def agentsGrid : Grid :=
  mkGridT [[true, true, true, true, true], [false, false, false, true, false]]

/-- Two agents: the first crosses the top row left to right; the second
steps up onto `(3, 0)` — a cell the first agent passes through later. -/
def agentsList : List AgentST :=
  [⟨some ⟨0, 0⟩, some ⟨4, 0⟩⟩, ⟨some ⟨3, 1⟩, some ⟨3, 0⟩⟩]

/-! ## Concrete counterexample and failing-input theorems -/

/-- C1: evaluating the prioritized planner on `agentsGrid` with horizon 6:
both agents plan successfully, yet their committed paths occupy the same
cell `(3, 0)` at timestep 3 — the second agent parks on its goal at `t = 1`
and the first agent drives through that cell at `t = 3`, violating the
planner's claimed no-vertex-collision invariant. -/
theorem planAgents_goal_parking_collision :
    ∃ p1 p2, planAgents agentsGrid agentsList 6 = [some p1, some p2] ∧
      p1.getD 3 ⟨0, 0⟩ = ⟨3, 0⟩ ∧ p2.getD 3 ⟨0, 0⟩ = ⟨3, 0⟩ :=
  ⟨[⟨0, 0⟩, ⟨1, 0⟩, ⟨2, 0⟩, ⟨3, 0⟩, ⟨4, 0⟩, ⟨4, 0⟩, ⟨4, 0⟩],
   [⟨3, 1⟩, ⟨3, 0⟩, ⟨3, 0⟩, ⟨3, 0⟩, ⟨3, 0⟩, ⟨3, 0⟩, ⟨3, 0⟩],
   by decide, by decide, by decide⟩

/-- C3 counterexample: with `bridge_cost = 0`, raising the bridge budget
from 1 to 2 makes `findPathAStar` return a strictly more expensive (and
longer) path on `budgetGrid` — best-cost monotonicity in the budget fails
for zero bridge cost. -/
theorem findPathAStar_budget_monotone_cex :
    ∃ p1 p2,
      findPathAStar budgetGrid ⟨3, 2⟩ ⟨0, 1⟩ 1 0 = some p1 ∧
      findPathAStar budgetGrid ⟨3, 2⟩ ⟨0, 1⟩ 2 0 = some p2 ∧
      pathCost budgetGrid 0 p1 < pathCost budgetGrid 0 p2 ∧
      p1.length < p2.length :=
  ⟨[⟨3, 2⟩, ⟨2, 2⟩, ⟨1, 2⟩, ⟨1, 1⟩, ⟨0, 1⟩],
   [⟨3, 2⟩, ⟨3, 1⟩, ⟨2, 1⟩, ⟨2, 0⟩, ⟨1, 0⟩, ⟨0, 0⟩, ⟨0, 1⟩],
   by decide, by decide, by decide, by decide⟩

/-- C4 counterexample: on `rowGrid4`, incremental insertion of `(3, 0)`
connects it to the (itself disconnected) point `(2, 0)` and treats it as
connected, while a one-shot `findMST` recomputation on the same three
points leaves `(3, 0)` disconnected — the partitions differ. -/
theorem mst_incremental_batch_partition_cex :
    (⟨3, 0⟩ : Point2D) ∈ (findMST rowGrid4 pts4 0 1).disconnectedPoints ∧
    (⟨3, 0⟩ : Point2D) ∉ (incrementalMST rowGrid4 pts4 0 1).disconnectedPOIs := by
  decide

/-- C7 counterexample: with `bridge_budget = 1` and `bridge_cost = 0` on
`wallGrid`, the goal node returned by the search has a parent chain with
`g`-values `[0, 0, 1]` — the bridged node's parent has an *equal* `g`, so
"every non-start node's parent has strictly smaller `g`" is false. -/
theorem astar_parent_strict_g_cex :
    (findPathAStarNode wallGrid ⟨0, 0⟩ ⟨2, 0⟩ 1 0).map strictParentGB = some false ∧
    (findPathAStarNode wallGrid ⟨0, 0⟩ ⟨2, 0⟩ 1 0).map chainG = some [0, 0, 1] := by
  constructor
  · rfl
  · rfl

/-! ## Heap index arithmetic -/

theorem hpar_lt {i : Nat} (h : 0 < i) : hpar i < i := by
  have h1 := Nat.div_le_self (i - 1) 2
  unfold hpar
  omega

theorem hpar_children {i : Nat} (h : 0 < i) :
    i = 2 * hpar i + 1 ∨ i = 2 * hpar i + 2 := by
  have h1 := Nat.div_add_mod (i - 1) 2
  have h2 : (i - 1) % 2 < 2 := Nat.mod_lt _ (by omega)
  unfold hpar
  omega

theorem hpar_left (j : Nat) : hpar (2 * j + 1) = j := by
  unfold hpar
  omega

theorem hpar_right (j : Nat) : hpar (2 * j + 2) = j := by
  unfold hpar
  omega

/-! ## Swaps preserve the heap's contents -/

theorem perm_cons_set {α : Type} :
    ∀ (t : List α) (m : Nat) (a c : α), t[m]? = some a →
      (a :: t.set m c).Perm (c :: t)
  | [], m, _, _, h => by simp at h
  | x :: t', 0, a, c, h => by
    simp only [List.getElem?_cons_zero, Option.some.injEq] at h
    subst h
    exact List.Perm.swap c x t'
  | x :: t', m + 1, a, c, h => by
    simp only [List.getElem?_cons_succ] at h
    have ih := perm_cons_set t' m a c h
    simp only [List.set_cons_succ]
    exact ((List.Perm.swap x a _).trans (ih.cons x)).trans (List.Perm.swap c x t')

theorem perm_set_swap {α : Type} :
    ∀ (l : List α) (i j : Nat) (a b : α), i ≠ j → l[i]? = some a → l[j]? = some b →
      ((l.set i b).set j a).Perm l
  | [], _, _, _, _, _, ha, _ => by simp at ha
  | _ :: _, 0, 0, _, _, hij, _, _ => absurd rfl hij
  | x :: t, 0, j + 1, a, b, _, ha, hb => by
    simp only [List.getElem?_cons_zero, Option.some.injEq] at ha
    simp only [List.getElem?_cons_succ] at hb
    subst ha
    simp only [List.set_cons_zero, List.set_cons_succ]
    exact perm_cons_set t j b x hb
  | x :: t, i + 1, 0, a, b, _, ha, hb => by
    simp only [List.getElem?_cons_zero, Option.some.injEq] at hb
    simp only [List.getElem?_cons_succ] at ha
    subst hb
    simp only [List.set_cons_zero, List.set_cons_succ]
    exact perm_cons_set t i a x ha
  | x :: t, i + 1, j + 1, a, b, hij, ha, hb => by
    simp only [List.getElem?_cons_succ] at ha hb
    simp only [List.set_cons_succ]
    exact (perm_set_swap t i j a b (by omega) ha hb).cons x

theorem bubbleUpGo_perm {α : Type} :
    ∀ (fuel : Nat) (l : List (Nat × α)) (idx : Nat), (bubbleUpGo fuel l idx).Perm l
  | 0, l, _ => List.Perm.refl l
  | fuel + 1, l, idx => by
    unfold bubbleUpGo
    by_cases h0 : idx = 0
    · simp [h0]
    · simp only [if_neg h0]
      cases he : l[idx]? with
      | none => exact List.Perm.refl l
      | some e =>
        cases hp : l[hpar idx]? with
        | none => exact List.Perm.refl l
        | some p =>
          by_cases hle : p.1 ≤ e.1
          · simp [hle]
          · simp only [if_neg hle]
            exact (bubbleUpGo_perm fuel _ (hpar idx)).trans
              (perm_set_swap l idx (hpar idx) e p
                (Nat.ne_of_gt (hpar_lt (Nat.pos_of_ne_zero h0))) he hp)

theorem bubbleDownGo_perm {α : Type} :
    ∀ (fuel : Nat) (l : List (Nat × α)) (idx : Nat), (bubbleDownGo fuel l idx).Perm l
  | 0, l, _ => List.Perm.refl l
  | fuel + 1, l, idx => by
    unfold bubbleDownGo
    cases he : l[idx]? with
    | none => exact List.Perm.refl l
    | some e =>
      cases hl : l[2 * idx + 1]? with
      | none =>
        cases hr : l[2 * idx + 2]? with
        | none => exact List.Perm.refl l
        | some cr => exact List.Perm.refl l
      | some cl =>
        cases hr : l[2 * idx + 2]? with
        | none =>
          by_cases h1 : cl.1 < e.1
          · simp only [if_pos h1]
            exact (bubbleDownGo_perm fuel _ _).trans
              (perm_set_swap l idx (2 * idx + 1) e cl (by omega) he hl)
          · simp [h1]
        | some cr =>
          by_cases h1 : cl.1 < e.1
          · by_cases h2 : cr.1 < cl.1
            · simp only [if_pos h1, if_pos h2]
              exact (bubbleDownGo_perm fuel _ _).trans
                (perm_set_swap l idx (2 * idx + 2) e cr (by omega) he hr)
            · simp only [if_pos h1, if_neg h2]
              exact (bubbleDownGo_perm fuel _ _).trans
                (perm_set_swap l idx (2 * idx + 1) e cl (by omega) he hl)
          · by_cases h2 : cr.1 < e.1
            · simp only [if_neg h1, if_pos h2]
              exact (bubbleDownGo_perm fuel _ _).trans
                (perm_set_swap l idx (2 * idx + 2) e cr (by omega) he hr)
            · simp [h1, h2]

theorem push_perm {α : Type} (hp : MinHeap α) (a : α) (pr : Nat) :
    (hp.push a pr).data.Perm ((pr, a) :: hp.data) := by
  unfold MinHeap.push
  exact (bubbleUpGo_perm _ _ _).trans (List.perm_append_singleton _ _)

theorem pop_perm {α : Type} (hp : MinHeap α) (e : Nat × α) (rest : List (Nat × α))
    (h : hp.data = e :: rest) : ((hp.pop).2).data.Perm rest := by
  unfold MinHeap.pop
  rw [h]
  cases rest with
  | nil => exact List.Perm.refl []
  | cons r rs =>
    simp only
    refine (bubbleDownGo_perm _ _ _).trans ?_
    have hdl : (e :: r :: rs).dropLast = e :: (r :: rs).dropLast := by
      simp [List.dropLast]
    rw [hdl]
    simp only [List.set_cons_zero]
    have heq : (r :: rs).dropLast ++ [(r :: rs).getLast (by simp)] = r :: rs :=
      List.dropLast_append_getLast (by simp)
    have hperm : ((r :: rs).getLast (by simp) :: (r :: rs).dropLast).Perm
        ((r :: rs).dropLast ++ [(r :: rs).getLast (by simp)]) :=
      (List.perm_append_singleton _ _).symm
    exact hperm.trans (by rw [heq])

/-! ## Sifting restores the heap invariant -/

theorem swapAt_get {α : Type} (l : List α) (i1 i2 : Nat) (v1 v2 : α) (hne : i1 ≠ i2)
    (h1 : i1 < l.length) (h2 : i2 < l.length) :
    ((l.set i1 v1).set i2 v2)[i1]? = some v1 ∧
    ((l.set i1 v1).set i2 v2)[i2]? = some v2 ∧
    ∀ k, k ≠ i1 → k ≠ i2 → ((l.set i1 v1).set i2 v2)[k]? = l[k]? := by
  refine ⟨?_, ?_, ?_⟩
  · rw [List.getElem?_set_ne (Ne.symm hne), List.getElem?_set_self h1]
  · rw [List.getElem?_set_self]
    rwa [List.length_set]
  · intro k hk1 hk2
    rw [List.getElem?_set_ne (Ne.symm hk2), List.getElem?_set_ne (Ne.symm hk1)]

theorem bubbleUpGo_inv {α : Type} :
    ∀ (fuel : Nat) (l : List (Nat × α)) (idx : Nat), idx ≤ fuel → AlmostUp l idx →
      HeapInvL (bubbleUpGo fuel l idx)
  | 0, l, idx, hle, ha => by
    have h0 : idx = 0 := by omega
    subst h0
    intro i p c hi hp hc
    exact ha.1 i p c hi (by omega) hp hc
  | fuel + 1, l, idx, hle, ha => by
    unfold bubbleUpGo
    by_cases h0 : idx = 0
    · subst h0
      simp only [if_pos rfl]
      intro i p c hi hp hc
      exact ha.1 i p c hi (by omega) hp hc
    · simp only [if_neg h0]
      have hidx0 : 0 < idx := Nat.pos_of_ne_zero h0
      cases he : l[idx]? with
      | none =>
        intro i p c hi hp hc
        by_cases hii : i = idx
        · subst hii
          rw [he] at hc
          exact absurd hc (by simp)
        · exact ha.1 i p c hi hii hp hc
      | some e =>
        cases hp : l[hpar idx]? with
        | none =>
          have hlen : idx < l.length := (List.getElem?_eq_some_iff.mp he).1
          have hpl : hpar idx < l.length := lt_trans (hpar_lt hidx0) hlen
          rw [List.getElem?_eq_getElem hpl] at hp
          exact absurd hp (by simp)
        | some p =>
          by_cases hpe : p.1 ≤ e.1
          · simp only [if_pos hpe]
            intro i q c hi hq hc
            by_cases hii : i = idx
            · subst hii
              rw [he] at hc
              rw [hp] at hq
              cases hq
              cases hc
              exact hpe
            · exact ha.1 i q c hi hii hq hc
          · simp only [if_neg hpe]
            have hlen : idx < l.length := (List.getElem?_eq_some_iff.mp he).1
            have hpl : hpar idx < l.length := lt_trans (hpar_lt hidx0) hlen
            have hne : idx ≠ hpar idx := Nat.ne_of_gt (hpar_lt hidx0)
            obtain ⟨g1, g2, g3⟩ := swapAt_get l idx (hpar idx) p e hne hlen hpl
            have hep : e.1 < p.1 := by omega
            apply bubbleUpGo_inv fuel _ (hpar idx) (by have := hpar_lt hidx0; omega)
            constructor
            · intro i q c hi hip hq hc
              by_cases hii : i = idx
              · -- the repaired edge: parent slot now holds e, idx holds p
                subst hii
                rw [g2] at hq
                rw [g1] at hc
                cases hq
                cases hc
                omega
              · by_cases hpar_i_idx : hpar i = idx
                · -- i is a child of idx: use the grandparent clause of AlmostUp
                  have hchild := hpar_children hi
                  rw [hpar_i_idx] at hchild
                  have hi_ne_par : i ≠ hpar idx := by
                    have := hpar_lt hidx0
                    omega
                  rw [hpar_i_idx, g1] at hq
                  rw [g3 i hii hi_ne_par] at hc
                  cases hq
                  exact ha.2 hidx0 i p c hchild hp hc
                · -- untouched or sibling edges
                  by_cases hpar_i_par : hpar i = hpar idx
                  · -- sibling of idx: its parent slot now holds e ≤ p ≤ old value
                    have hi_ne_par : i ≠ hpar idx := by
                      have h1 := hpar_lt hi
                      omega
                    rw [hpar_i_par, g2] at hq
                    rw [g3 i hii hi_ne_par] at hc
                    cases hq
                    have := ha.1 i p c hi hii (by rw [hpar_i_par]; exact hp) hc
                    omega
                  · have hi_ne_par : i ≠ hpar idx := hip
                    rw [g3 (hpar i) hpar_i_idx hpar_i_par] at hq
                    rw [g3 i hii hi_ne_par] at hc
                    exact ha.1 i q c hi hii hq hc
            · intro hpp j gp c hj hgp hc
              -- grandparent clause at the new index hpar idx
              have hgl : hpar (hpar idx) < hpar idx := hpar_lt hpp
              have hg_ne1 : hpar (hpar idx) ≠ idx := by
                have := hpar_lt hidx0
                omega
              have hg_ne2 : hpar (hpar idx) ≠ hpar idx := by omega
              rw [g3 (hpar (hpar idx)) hg_ne1 hg_ne2] at hgp
              have hgp_le_p : gp.1 ≤ p.1 :=
                ha.1 (hpar idx) gp p hpp (Ne.symm hne) hgp hp
              by_cases hji : j = idx
              · subst hji
                rw [g1] at hc
                cases hc
                exact hgp_le_p
              · -- sibling of idx below hpar idx
                have hj_ne_par : j ≠ hpar idx := by
                  have := hpar_lt hpp
                  omega
                rw [g3 j hji hj_ne_par] at hc
                have hpj : hpar j = hpar idx := by
                  rcases hj with h | h <;> (subst h; simp [hpar_left, hpar_right])
                have hj0 : 0 < j := by omega
                have := ha.1 j p c hj0 hji (by rw [hpj]; exact hp) hc
                omega

theorem almostDown_swap {α : Type} (l : List (Nat × α)) (idx si : Nat)
    (e cs : Nat × α) (hd : AlmostDown l idx)
    (hsi : si = 2 * idx + 1 ∨ si = 2 * idx + 2)
    (he : l[idx]? = some e) (hs : l[si]? = some cs)
    (hcs_lt : cs.1 < e.1)
    (hsib : ∀ j co, (j = 2 * idx + 1 ∨ j = 2 * idx + 2) → l[j]? = some co → cs.1 ≤ co.1) :
    AlmostDown ((l.set idx cs).set si e) si := by
  have hlen : idx < l.length := (List.getElem?_eq_some_iff.mp he).1
  have hsl : si < l.length := (List.getElem?_eq_some_iff.mp hs).1
  have hne : idx ≠ si := by omega
  obtain ⟨g1, g2, g3⟩ := swapAt_get l idx si cs e hne hlen hsl
  have hpsi : hpar si = idx := by
    rcases hsi with h | h <;> (subst h; simp [hpar_left, hpar_right])
  constructor
  · intro i q c hi hip hq hc
    by_cases hii : i = si
    · -- the repaired edge (idx, si)
      subst hii
      rw [hpsi, g1] at hq
      rw [g2] at hc
      cases hq
      cases hc
      omega
    · by_cases hi_idx : i = idx
      · -- the edge from idx's parent to idx (idx now holds cs)
        subst hi_idx
        have hi_par_ne2 : hpar i ≠ si := by
          have := hpar_lt hi
          omega
        rw [g3 (hpar i) (Nat.ne_of_lt (hpar_lt hi)) hi_par_ne2] at hq
        rw [g1] at hc
        cases hc
        exact hd.2 hi si q cs hsi hq hs
      · by_cases hpar_i_idx : hpar i = idx
        · -- the other child of idx
          have hchild := hpar_children hi
          rw [hpar_i_idx] at hchild
          rw [hpar_i_idx, g1] at hq
          rw [g3 i hi_idx hii] at hc
          cases hq
          exact hsib i c hchild hc
        · -- untouched edges
          rw [g3 (hpar i) hpar_i_idx hip] at hq
          rw [g3 i hi_idx hii] at hc
          exact hd.1 i q c hi hpar_i_idx hq hc
  · intro _ j gp c hj hgp hc
    have hj_ne_idx : j ≠ idx := by omega
    have hj_ne_si : j ≠ si := by omega
    rw [hpsi, g1] at hgp
    rw [g3 j hj_ne_idx hj_ne_si] at hc
    cases hgp
    have hj0 : 0 < j := by omega
    have hpj : hpar j = si := by
      rcases hj with h | h <;> (subst h; simp [hpar_left, hpar_right])
    have hpj_ne : hpar j ≠ idx := by omega
    exact hd.1 j cs c hj0 hpj_ne (by rw [hpj]; exact hs) hc

theorem bubbleDownGo_inv {α : Type} :
    ∀ (fuel : Nat) (l : List (Nat × α)) (idx : Nat), l.length ≤ fuel + idx →
      AlmostDown l idx → HeapInvL (bubbleDownGo fuel l idx)
  | 0, l, idx, hle, hd => by
    intro i p c hi hp hc
    by_cases hpi : hpar i = idx
    · have hcl : i < l.length := (List.getElem?_eq_some_iff.mp hc).1
      have := hpar_children hi
      omega
    · exact hd.1 i p c hi hpi hp hc
  | fuel + 1, l, idx, hle, hd => by
    unfold bubbleDownGo
    cases he : l[idx]? with
    | none =>
      intro i p c hi hp hc
      by_cases hpi : hpar i = idx
      · rw [hpi, he] at hp
        exact absurd hp (by simp)
      · exact hd.1 i p c hi hpi hp hc
    | some e =>
      have fullEnd : (∀ j co, (j = 2 * idx + 1 ∨ j = 2 * idx + 2) →
          l[j]? = some co → e.1 ≤ co.1) → HeapInvL l := by
        intro hall i p c hi hp hc
        by_cases hpi : hpar i = idx
        · have hchild := hpar_children hi
          rw [hpi] at hchild hp
          rw [he] at hp
          cases hp
          exact hall i c hchild hc
        · exact hd.1 i p c hi hpi hp hc
      cases hl : l[2 * idx + 1]? with
      | none =>
        have noChild : ∀ j (co : Nat × α), (j = 2 * idx + 1 ∨ j = 2 * idx + 2) →
            l[j]? = some co → e.1 ≤ co.1 := by
          intro j co hj hco
          have hjl : j < l.length := (List.getElem?_eq_some_iff.mp hco).1
          have hll : 2 * idx + 1 < l.length := by omega
          rw [List.getElem?_eq_getElem hll] at hl
          exact absurd hl (by simp)
        cases hr : l[2 * idx + 2]? with
        | none => exact fullEnd noChild
        | some cr => exact fullEnd noChild
      | some cl =>
        cases hr : l[2 * idx + 2]? with
        | none =>
          by_cases h1 : cl.1 < e.1
          · simp only [if_pos h1]
            refine bubbleDownGo_inv fuel _ (2 * idx + 1) ?_ ?_
            · rw [List.length_set, List.length_set]
              omega
            · refine almostDown_swap l idx (2 * idx + 1) e cl hd (Or.inl rfl) he hl h1 ?_
              intro j co hj hco
              rcases hj with hj | hj
              · subst hj
                rw [hl] at hco
                cases hco
                exact Nat.le_refl _
              · subst hj
                rw [hr] at hco
                exact absurd hco (by simp)
          · simp only [if_neg h1]
            apply fullEnd
            intro j co hj hco
            rcases hj with hj | hj
            · subst hj
              rw [hl] at hco
              cases hco
              omega
            · subst hj
              rw [hr] at hco
              exact absurd hco (by simp)
        | some cr =>
          by_cases h1 : cl.1 < e.1
          · by_cases h2 : cr.1 < cl.1
            · simp only [if_pos h1, if_pos h2]
              refine bubbleDownGo_inv fuel _ (2 * idx + 2) ?_ ?_
              · rw [List.length_set, List.length_set]
                omega
              · refine almostDown_swap l idx (2 * idx + 2) e cr hd (Or.inr rfl) he hr
                  (by omega) ?_
                intro j co hj hco
                rcases hj with hj | hj
                · subst hj
                  rw [hl] at hco
                  cases hco
                  omega
                · subst hj
                  rw [hr] at hco
                  cases hco
                  exact Nat.le_refl _
            · simp only [if_pos h1, if_neg h2]
              refine bubbleDownGo_inv fuel _ (2 * idx + 1) ?_ ?_
              · rw [List.length_set, List.length_set]
                omega
              · refine almostDown_swap l idx (2 * idx + 1) e cl hd (Or.inl rfl) he hl h1 ?_
                intro j co hj hco
                rcases hj with hj | hj
                · subst hj
                  rw [hl] at hco
                  cases hco
                  exact Nat.le_refl _
                · subst hj
                  rw [hr] at hco
                  cases hco
                  omega
          · by_cases h2 : cr.1 < e.1
            · simp only [if_neg h1, if_pos h2]
              refine bubbleDownGo_inv fuel _ (2 * idx + 2) ?_ ?_
              · rw [List.length_set, List.length_set]
                omega
              · refine almostDown_swap l idx (2 * idx + 2) e cr hd (Or.inr rfl) he hr h2 ?_
                intro j co hj hco
                rcases hj with hj | hj
                · subst hj
                  rw [hl] at hco
                  cases hco
                  omega
                · subst hj
                  rw [hr] at hco
                  cases hco
                  exact Nat.le_refl _
            · simp only [if_neg h1, if_neg h2]
              apply fullEnd
              intro j co hj hco
              rcases hj with hj | hj
              · subst hj
                rw [hl] at hco
                cases hco
                omega
              · subst hj
                rw [hr] at hco
                cases hco
                omega

/-! ## The heap API specification -/

theorem root_min {α : Type} (l : List (Nat × α)) (hinv : HeapInvL l)
    (r : Nat × α) (hr : l[0]? = some r) :
    ∀ (i : Nat) (c : Nat × α), l[i]? = some c → r.1 ≤ c.1 := by
  intro i
  induction i using Nat.strong_induction_on with
  | _ i ih =>
    intro c hc
    rcases Nat.eq_zero_or_pos i with h0 | h0
    · subst h0
      rw [hr] at hc
      cases hc
      exact Nat.le_refl _
    · have hil : i < l.length := (List.getElem?_eq_some_iff.mp hc).1
      have hpl : hpar i < l.length := lt_trans (hpar_lt h0) hil
      have hp : l[hpar i]? = some (l.get ⟨hpar i, hpl⟩) := by
        rw [List.getElem?_eq_getElem hpl]
        rfl
      exact le_trans (ih (hpar i) (hpar_lt h0) _ hp) (hinv i _ c h0 hp hc)

theorem push_inv {α : Type} (hp : MinHeap α) (a : α) (pr : Nat)
    (hinv : HeapInvL hp.data) : HeapInvL (hp.push a pr).data := by
  unfold MinHeap.push
  apply bubbleUpGo_inv hp.data.length _ hp.data.length (Nat.le_refl _)
  constructor
  · intro i p c hi hne hp' hc
    have hci : i < hp.data.length + 1 := by
      have := (List.getElem?_eq_some_iff.mp hc).1
      simpa using this
    have hilt : i < hp.data.length := by omega
    have hplt : hpar i < hp.data.length := lt_trans (hpar_lt hi) hilt
    rw [List.getElem?_append_left hilt] at hc
    rw [List.getElem?_append_left hplt] at hp'
    exact hinv i p c hi hp' hc
  · intro hn j gp c hj hgp hc
    have := (List.getElem?_eq_some_iff.mp hc).1
    simp only [List.length_append, List.length_cons, List.length_nil] at this
    omega

theorem pop_inv {α : Type} (hp : MinHeap α) (hinv : HeapInvL hp.data) :
    HeapInvL ((hp.pop).2).data := by
  unfold MinHeap.pop
  rcases hd : hp.data with _ | ⟨e, rest⟩
  · simpa using (hd ▸ hinv)
  · rcases rest with _ | ⟨r, rs⟩
    · intro i p c hi hp' hc
      simp at hc
    · simp only
      apply bubbleDownGo_inv
      · rw [List.length_set, List.length_dropLast]
        simp
      · constructor
        · intro i p c hi hpi hp' hc
          have hi3 : 1 ≤ hpar i := Nat.pos_of_ne_zero hpi
          have hi1 : 1 ≤ i := by
            have := hpar_lt hi
            omega
          have hset : ∀ k, 1 ≤ k →
              (((e :: r :: rs).dropLast.set 0 ((r :: rs).getLast (by simp)))[k]? =
                (e :: r :: rs).dropLast[k]?) := by
            intro k hk
            exact List.getElem?_set_ne (by omega)
          rw [hset i hi1] at hc
          rw [hset (hpar i) hi3] at hp'
          rw [List.getElem?_dropLast] at hc hp'
          split at hc
          · split at hp'
            · exact hinv i p c hi (by rw [hd]; exact hp') (by rw [hd]; exact hc)
            · exact absurd hp' (by simp)
          · exact absurd hc (by simp)
        · intro h0
          exact absurd h0 (by omega)

theorem reachable_inv {α : Type} (hp : MinHeap α) (h : HeapReachable hp) :
    HeapInvL hp.data := by
  induction h with
  | emptyHeap =>
    intro i p c hi hp' hc
    simp [MinHeap.emptyHeap] at hc
  | push hq a pr _ ih => exact push_inv hq a pr ih
  | pop hq _ ih => exact pop_inv hq ih

/-- C8: for every heap reachable by a sequence of `push` and `pop`
operations, `isEmpty` is true exactly when no entries are stored, `pop`
signals empty exactly when the heap is empty, and otherwise `pop` returns
the root item — whose priority is minimal among all stored entries — and
removes exactly that one entry (the remaining entries are a permutation of
the rest). -/
theorem minHeap_pop_min_spec {α : Type} (hp : MinHeap α) (hreach : HeapReachable hp) :
    (hp.isEmpty = true ↔ hp.data = []) ∧
    ((hp.pop).1 = none ↔ hp.data = []) ∧
    (∀ e rest, hp.data = e :: rest →
      (hp.pop).1 = some e.2 ∧ (∀ x ∈ hp.data, e.1 ≤ x.1) ∧
      ((hp.pop).2).data.Perm rest) := by
  have hinv := reachable_inv hp hreach
  refine ⟨?_, ?_, ?_⟩
  · simp [MinHeap.isEmpty, List.isEmpty_iff]
  · unfold MinHeap.pop
    rcases hd : hp.data with _ | ⟨e, rest⟩
    · simp
    · rcases rest with _ | ⟨r, rs⟩ <;> simp
  · intro e rest hd
    refine ⟨?_, ?_, pop_perm hp e rest hd⟩
    · unfold MinHeap.pop
      rw [hd]
      rcases rest with _ | ⟨r, rs⟩ <;> simp
    · intro x hx
      have hr : hp.data[0]? = some e := by
        rw [hd]
        simp
      obtain ⟨n, hn, he⟩ := List.mem_iff_getElem.mp hx
      exact root_min hp.data hinv e hr n x (by rw [List.getElem?_eq_getElem hn, he])

/-- Witness for C8 at the concrete reachable heap
`heapEx = empty.push 10 5 |>.push 20 3` whose array is `[(3,20),(5,10)]`. -/
theorem minHeap_pop_min_spec_witness :
    (heapEx.pop).1 = some 20 ∧ (∀ x ∈ heapEx.data, 3 ≤ x.1) ∧
      ((heapEx.pop).2).data.Perm [(5, 10)] :=
  (minHeap_pop_min_spec heapEx
      (HeapReachable.push _ 20 3 (HeapReachable.push _ 10 5 HeapReachable.emptyHeap))).2.2
    (3, 20) [(5, 10)] (by rfl)

/-! ## A* soundness: every node in play is chain-valid -/

theorem pop_fst {α : Type} (hp : MinHeap α) (e : Nat × α) (rest : List (Nat × α))
    (hd : hp.data = e :: rest) : (hp.pop).1 = some e.2 := by
  unfold MinHeap.pop
  rw [hd]
  rcases rest with _ | ⟨r, rs⟩ <;> simp

theorem pop_fst_none {α : Type} (hp : MinHeap α) (hd : hp.data = []) :
    hp.pop = (none, hp) := by
  unfold MinHeap.pop
  rw [hd]

theorem neighborsOf_adjacent (cx cy : Int) (q : Point2D) (hq : q ∈ neighborsOf cx cy) :
    adjacentB ⟨cx, cy⟩ q = true := by
  simp only [neighborsOf, List.mem_cons, List.mem_singleton, List.not_mem_nil, or_false] at hq
  rcases hq with h | h | h | h <;> subst h <;> simp [adjacentB]

theorem chainAdjB_snoc :
    ∀ (l : List Point2D) (z a : Point2D), l.getLast? = some z →
      chainAdjB (l ++ [a]) = (chainAdjB l && adjacentB z a)
  | [], z, a, h => by simp at h
  | [x], z, a, h => by
    simp only [List.getLast?_singleton, Option.some.injEq] at h
    subst h
    simp [chainAdjB, Bool.and_comm]
  | x :: y :: t, z, a, h => by
    rw [List.getLast?_cons_cons] at h
    have ih := chainAdjB_snoc (y :: t) z a h
    show (adjacentB x y && chainAdjB ((y :: t) ++ [a])) =
      ((adjacentB x y && chainAdjB (y :: t)) && adjacentB z a)
    rw [ih, Bool.and_assoc]

/-- The core structural facts about a chain-valid node: its trace is a
valid bridged path from the start to its own cell, with exactly its
`bridgesUsed` bridge steps and cost exactly `g`. -/
theorem nodeOK_trace (grid : Grid) (start endP : Point2D) (bs bc : Nat) :
    ∀ n : NodeA, NodeOK grid start endP bs bc n →
      n.trace.head? = some start ∧
      n.trace.getLast? = some ⟨n.x, n.y⟩ ∧
      chainAdjB n.trace = true ∧
      (n.trace.drop 1).all (inBoundsB grid) = true ∧
      bridgesOn grid n.trace = n.bridgesUsed ∧
      pathCost grid bc n.trace = n.g ∧
      n.bridgesUsed ≤ bs ∧
      n.h = manhatten n.x endP.x n.y endP.y ∧ n.f = n.g + n.h
  | .mk x y g h f none b, hok => by
    obtain ⟨hx, hy, hg, hb, hh, hf⟩ := hok
    subst hx hy hg hb hh hf
    refine ⟨?_, ?_, ?_, ?_, ?_, ?_, ?_, ?_, ?_⟩ <;> first
      | rfl
      | exact Nat.zero_le _
  | .mk x y g h f (some p) b, hok => by
    obtain ⟨hp, hadj, hin, hb, hble, hg, hh, hf⟩ := hok
    obtain ⟨ih1, ih2, ih3, ih4, ih5, ih6, ih7, _, _⟩ :=
      nodeOK_trace grid start endP bs bc p hp
    have hq : (NodeA.mk x y g h f (some p) b).trace = p.trace ++ [(⟨x, y⟩ : Point2D)] :=
      rfl
    rcases hnil : p.trace with _ | ⟨a, t⟩
    · rw [hnil] at ih2
      exact absurd ih2 (by simp)
    rw [hnil] at ih1 ih2 ih3 ih4 ih5 ih6
    refine ⟨?_, ?_, ?_, ?_, ?_, ?_, hble, hh, hf⟩
    · rw [hq, hnil]
      simpa using ih1
    · rw [hq]
      simp [NodeA.x, NodeA.y]
    · rw [hq, hnil]
      show chainAdjB ((a :: t) ++ [(⟨x, y⟩ : Point2D)]) = true
      rw [chainAdjB_snoc (a :: t) ⟨p.x, p.y⟩ ⟨x, y⟩ ih2, ih3, hadj]
      rfl
    · rw [hq, hnil]
      simp only [List.cons_append, List.drop_succ_cons, List.drop_zero] at ih4 ⊢
      rw [List.all_append, ih4]
      simp only [List.all_cons, List.all_nil, Bool.and_true, Bool.true_and]
      simp only [inBoundsB, decide_eq_true_eq]
      exact hin
    · show bridgesOn grid (_ ++ [(⟨x, y⟩ : Point2D)]) = b
      rw [hnil]
      unfold bridgesOn at ih5 ⊢
      simp only [List.cons_append, List.drop_succ_cons, List.drop_zero] at ih5 ⊢
      rw [List.countP_append, ih5, hb]
      by_cases hw : walkableAt grid x y
      · simp [hw]
      · simp [hw]
    · show pathCost grid bc (_ ++ [(⟨x, y⟩ : Point2D)]) = g
      rw [hnil]
      unfold pathCost at ih6 ⊢
      simp only [List.cons_append, List.drop_succ_cons, List.drop_zero] at ih6 ⊢
      rw [List.map_append, List.sum_append, ih6, hg]
      simp [stepPrice]

theorem pop_eq_some {α : Type} (hp : MinHeap α) (a : α) (hp2 : MinHeap α)
    (h : hp.pop = (some a, hp2)) :
    ∃ pr rest, hp.data = (pr, a) :: rest ∧ hp2.data.Perm rest := by
  rcases hd : hp.data with _ | ⟨e, rest⟩
  · rw [pop_fst_none hp hd] at h
    simp at h
  · have h1 := pop_fst hp e rest hd
    rw [h] at h1
    simp only [Option.some.injEq] at h1
    have h2 := pop_perm hp e rest hd
    rw [h] at h2
    have he : (e.1, a) = e := by rw [h1]
    refine ⟨e.1, rest, ?_, h2⟩
    rw [he]

theorem relaxNeighbor_ok (grid : Grid) (start endP : Point2D) (bs bc : Nat)
    (closed : List AKey) (current : NodeA)
    (hcur : NodeOK grid start endP bs bc current)
    (acc : MinHeap NodeA × List (AKey × NodeA))
    (hacc : ∀ e ∈ acc.1.data, NodeOK grid start endP bs bc e.2)
    (q : Point2D) (hadj : adjacentB ⟨current.x, current.y⟩ q = true) :
    ∀ e ∈ (relaxNeighbor grid endP bs bc closed current acc q).1.data,
      NodeOK grid start endP bs bc e.2 := by
  unfold relaxNeighbor
  dsimp only
  by_cases h1 : q.x < 0 ∨ (gridW grid : Int) ≤ q.x ∨ q.y < 0 ∨ (gridH grid : Int) ≤ q.y
  · rw [if_pos h1]
    exact hacc
  rw [if_neg h1]
  by_cases h2 : bs <
      (if walkableAt grid q.x q.y = true then current.bridgesUsed
        else current.bridgesUsed + 1)
  · rw [if_pos h2]
    exact hacc
  rw [if_neg h2]
  by_cases h3 : ((q.x, q.y,
      (if walkableAt grid q.x q.y = true then current.bridgesUsed
        else current.bridgesUsed + 1)) : AKey) ∈ closed
  · rw [if_pos h3]
    exact hacc
  rw [if_neg h3]
  by_cases h4 : betterThan acc.2 ((q.x, q.y,
      (if walkableAt grid q.x q.y = true then current.bridgesUsed
        else current.bridgesUsed + 1)) : AKey)
      (current.g + (if walkableAt grid q.x q.y = true then 1 else bc)) = true
  · rw [if_pos h4]
    intro e he
    rcases List.mem_cons.mp ((push_perm acc.1 _ _).mem_iff.mp he) with heq | hein
    · subst heq
      refine ⟨hcur, ?_, ?_, rfl, by omega, rfl, rfl, rfl⟩
      · exact hadj
      · unfold inBoundsI
        omega
    · exact hacc e hein
  · rw [if_neg h4]
    exact hacc

theorem foldl_relax_ok (grid : Grid) (start endP : Point2D) (bs bc : Nat)
    (closed : List AKey) (current : NodeA)
    (hcur : NodeOK grid start endP bs bc current) :
    ∀ (ps : List Point2D) (acc : MinHeap NodeA × List (AKey × NodeA)),
      (∀ q ∈ ps, adjacentB ⟨current.x, current.y⟩ q = true) →
      (∀ e ∈ acc.1.data, NodeOK grid start endP bs bc e.2) →
      ∀ e ∈ (ps.foldl (relaxNeighbor grid endP bs bc closed current) acc).1.data,
        NodeOK grid start endP bs bc e.2
  | [], acc, _, hacc => hacc
  | q :: ps, acc, hps, hacc => by
    simp only [List.foldl_cons]
    exact foldl_relax_ok grid start endP bs bc closed current hcur ps _
      (fun r hr => hps r (List.mem_cons_of_mem _ hr))
      (relaxNeighbor_ok grid start endP bs bc closed current hcur acc hacc q
        (hps q (List.mem_cons_self _ _)))

theorem astarGo_ok (grid : Grid) (start endP : Point2D) (bs bc : Nat) :
    ∀ (fuel : Nat) (openSet : MinHeap NodeA) (closed : List AKey)
      (nmap : List (AKey × NodeA)) (n : NodeA),
      (∀ e ∈ openSet.data, NodeOK grid start endP bs bc e.2) →
      astarGo grid endP bs bc fuel openSet closed nmap = some n →
      NodeOK grid start endP bs bc n ∧ n.x = endP.x ∧ n.y = endP.y
  | 0, openSet, closed, nmap, n, hopen, heq => by simp [astarGo] at heq
  | fuel + 1, openSet, closed, nmap, n, hopen, heq => by
    unfold astarGo at heq
    rcases hpop : MinHeap.pop openSet with ⟨o, os1⟩
    rw [hpop] at heq
    cases o with
    | none => simp at heq
    | some current =>
      obtain ⟨pr, rest, hdata, hperm⟩ := pop_eq_some openSet current os1 hpop
      have hcur : NodeOK grid start endP bs bc current := by
        have hmem : ((pr, current) : Nat × NodeA) ∈ openSet.data := by
          rw [hdata]
          exact List.mem_cons_self _ _
        exact hopen _ hmem
      have hos1 : ∀ e ∈ os1.data, NodeOK grid start endP bs bc e.2 := by
        intro e he
        exact hopen e (by rw [hdata]; exact List.mem_cons_of_mem _ (hperm.subset he))
      simp only at heq
      by_cases hck : ((current.x, current.y, current.bridgesUsed) : AKey) ∈ closed
      · rw [if_pos hck] at heq
        exact astarGo_ok grid start endP bs bc fuel os1 closed nmap n hos1 heq
      · rw [if_neg hck] at heq
        by_cases hgoal : current.x = endP.x ∧ current.y = endP.y
        · rw [if_pos hgoal] at heq
          cases heq
          exact ⟨hcur, hgoal⟩
        · rw [if_neg hgoal] at heq
          refine astarGo_ok grid start endP bs bc fuel _ _ _ n ?_ heq
          exact foldl_relax_ok grid start endP bs bc _ current hcur
            (neighborsOf current.x current.y) (os1, nmap)
            (fun q hq => neighborsOf_adjacent current.x current.y q hq) hos1

/-- The initial open set contains exactly the start node, which is
chain-valid. -/
theorem initial_open_ok (grid : Grid) (start endP : Point2D) (bs bc : Nat) :
    ∀ e ∈ ((MinHeap.emptyHeap : MinHeap NodeA).push
        (NodeA.mk start.x start.y 0 (manhatten start.x endP.x start.y endP.y)
          (manhatten start.x endP.x start.y endP.y) none 0)
        (NodeA.mk start.x start.y 0 (manhatten start.x endP.x start.y endP.y)
          (manhatten start.x endP.x start.y endP.y) none 0).f).data,
      NodeOK grid start endP bs bc e.2 := by
  intro e he
  rcases List.mem_cons.mp ((push_perm _ _ _).mem_iff.mp he) with heq | hein
  · subst heq
    exact ⟨rfl, rfl, rfl, rfl, rfl, (Nat.zero_add _).symm⟩
  · simp [MinHeap.emptyHeap] at hein

/-- Whenever the node-level search succeeds, the returned goal node is
chain-valid and sits on the goal cell. -/
theorem findPathAStarNode_ok (grid : Grid) (start endP : Point2D) (bs bc : Nat)
    (n : NodeA) (hfind : findPathAStarNode grid start endP bs bc = some n) :
    NodeOK grid start endP bs bc n ∧ n.x = endP.x ∧ n.y = endP.y := by
  unfold findPathAStarNode at hfind
  exact astarGo_ok grid start endP bs bc _ _ _ _ n
    (initial_open_ok grid start endP bs bc) hfind

/-- C10: any path returned by `findPathAStar` starts at `start`, ends at
`end`, moves by unit Manhattan steps, stays in bounds after its first cell,
and bridges at most `bridge_budget` unwalkable cells. -/
theorem findPathAStar_path_valid (grid : Grid) (start endP : Point2D) (bs bc : Nat)
    (p : List Point2D)
    (hins : inBoundsB grid start = true) (hine : inBoundsB grid endP = true)
    (hfind : findPathAStar grid start endP bs bc = some p) :
    validPathB grid bs start endP p = true := by
  unfold findPathAStar at hfind
  rcases hnode : findPathAStarNode grid start endP bs bc with _ | n
  · rw [hnode] at hfind
    cases hfind
  · rw [hnode] at hfind
    simp only [Option.map_some'] at hfind
    obtain ⟨hok, hx, hy⟩ := findPathAStarNode_ok grid start endP bs bc n hnode
    obtain ⟨h1, h2, h3, h4, h5, h6, h7, _, _⟩ := nodeOK_trace grid start endP bs bc n hok
    have hend : (⟨n.x, n.y⟩ : Point2D) = endP := by
      rw [hx, hy]
    rw [hend] at h2
    cases hfind
    unfold validPathB
    rw [h1, h2, h3, h4, h5]
    simp [h7]

/-- Witness for C10 on the wall grid with one allowed bridge. -/
theorem findPathAStar_path_valid_witness :
    validPathB wallGrid 1 ⟨0, 0⟩ ⟨2, 0⟩ [⟨0, 0⟩, ⟨1, 0⟩, ⟨2, 0⟩] = true :=
  findPathAStar_path_valid wallGrid ⟨0, 0⟩ ⟨2, 0⟩ 1 5 [⟨0, 0⟩, ⟨1, 0⟩, ⟨2, 0⟩]
    (by decide) (by decide) (by rfl)

/-- Chain-valid nodes have rooted, `g`-monotone parent chains, strictly
monotone as soon as the bridge cost is at least 1. -/
theorem nodeOK_chain_props (grid : Grid) (start endP : Point2D) (bs bc : Nat) :
    ∀ n : NodeA, NodeOK grid start endP bs bc n →
      rootedAtB start n = true ∧ leParentGB n = true ∧
      (1 ≤ bc → strictParentGB n = true)
  | .mk x y g h f none b, hok => by
    obtain ⟨hx, hy, hg, hb, _, _⟩ := hok
    subst hx hy hg hb
    refine ⟨?_, rfl, fun _ => rfl⟩
    simp [rootedAtB]
  | .mk x y g h f (some p) b, hok => by
    obtain ⟨hp, _, _, _, _, hg, _, _⟩ := hok
    obtain ⟨ih1, ih2, ih3⟩ := nodeOK_chain_props grid start endP bs bc p hp
    refine ⟨ih1, ?_, ?_⟩
    · show (decide (p.g ≤ g) && leParentGB p) = true
      rw [ih2, Bool.and_true, decide_eq_true_eq, hg]
      split <;> omega
    · intro hbc
      show (decide (p.g < g) && strictParentGB p) = true
      rw [ih3 hbc, Bool.and_true, decide_eq_true_eq, hg]
      split <;> omega

/-- C7 (amended): the parent chain of the node returned by the search is an
acyclic chain rooted at the start node whose `g` values never decrease, and
they strictly increase whenever `bridge_cost ≥ 1` (with `bridge_cost = 0` a
bridge step keeps `g` unchanged, see the counterexample). -/
theorem astar_parent_chain_of_result (grid : Grid) (start endP : Point2D)
    (bs bc : Nat) (n : NodeA)
    (hfind : findPathAStarNode grid start endP bs bc = some n) :
    rootedAtB start n = true ∧ leParentGB n = true ∧
    (1 ≤ bc → strictParentGB n = true) :=
  nodeOK_chain_props grid start endP bs bc n
    (findPathAStarNode_ok grid start endP bs bc n hfind).1

/-- C9: searching from a walkable in-bounds cell to itself returns the
singleton path `[p]`, whatever the bridging parameters: the start node is
popped first and immediately passes the goal test. -/
theorem findPathAStar_self_singleton (grid : Grid) (p : Point2D) (bs bc : Nat)
    (hw : walkableAt grid p.x p.y = true) (hin : inBoundsB grid p = true) :
    findPathAStar grid p p bs bc = some [p] := by
  have key : ∀ fuel : Nat, astarGo grid p bs bc (fuel + 1)
      ((MinHeap.emptyHeap : MinHeap NodeA).push
        (NodeA.mk p.x p.y 0 (manhatten p.x p.x p.y p.y) (manhatten p.x p.x p.y p.y) none 0)
        (NodeA.mk p.x p.y 0 (manhatten p.x p.x p.y p.y) (manhatten p.x p.x p.y p.y)
          none 0).f)
      [] (assocSet [] (p.x, p.y, 0)
        (NodeA.mk p.x p.y 0 (manhatten p.x p.x p.y p.y) (manhatten p.x p.x p.y p.y)
          none 0)) =
      some (NodeA.mk p.x p.y 0 (manhatten p.x p.x p.y p.y) (manhatten p.x p.x p.y p.y)
        none 0) := by
    intro fuel
    have hpop : MinHeap.pop ((MinHeap.emptyHeap : MinHeap NodeA).push
        (NodeA.mk p.x p.y 0 (manhatten p.x p.x p.y p.y) (manhatten p.x p.x p.y p.y) none 0)
        (NodeA.mk p.x p.y 0 (manhatten p.x p.x p.y p.y) (manhatten p.x p.x p.y p.y)
          none 0).f) =
        (some (NodeA.mk p.x p.y 0 (manhatten p.x p.x p.y p.y) (manhatten p.x p.x p.y p.y)
          none 0), (⟨[]⟩ : MinHeap NodeA)) := rfl
    unfold astarGo
    rw [hpop]
    dsimp only
    rw [if_neg (List.not_mem_nil _), if_pos ⟨rfl, rfl⟩]
  obtain ⟨k, hk⟩ : ∃ k, astarFuel grid bs = k + 1 :=
    ⟨6 * (gridW grid * gridH grid * (bs + 1) + 1), rfl⟩
  unfold findPathAStar findPathAStarNode
  dsimp only
  rw [hk, key k]
  simp only [Option.map_some']
  rfl

/-- Witness for C9 on the open 5×5 grid at `(2, 3)`. -/
theorem findPathAStar_self_singleton_witness :
    findPathAStar openGrid5 ⟨2, 3⟩ ⟨2, 3⟩ 7 2 = some [⟨2, 3⟩] :=
  findPathAStar_self_singleton openGrid5 ⟨2, 3⟩ 7 2 (by decide) (by decide)

/-- Witness for the amended C7 on the wall grid with bridge cost 5. -/
theorem astar_parent_chain_witness :
    ∃ n : NodeA, rootedAtB ⟨0, 0⟩ n = true ∧ leParentGB n = true ∧
      (1 ≤ 5 → strictParentGB n = true) :=
  ⟨(NodeA.mk 2 0 6 0 6
      (some (NodeA.mk 1 0 5 1 6 (some (NodeA.mk 0 0 0 2 2 none 0)) 1)) 1),
   astar_parent_chain_of_result wallGrid ⟨0, 0⟩ ⟨2, 0⟩ 1 5 _ (by rfl)⟩

/-! ## Prim's MST loop -/

theorem setAdd_mem_iff (s : List Nat) (y x : Nat) : x ∈ setAdd s y ↔ x ∈ s ∨ x = y := by
  unfold setAdd
  split
  · next hy =>
    constructor
    · exact fun h => Or.inl h
    · rintro (h | rfl)
      · exact h
      · exact hy
  · simp

theorem setAdd_nodup (s : List Nat) (y : Nat) (h : s.Nodup) : (setAdd s y).Nodup := by
  unfold setAdd
  split
  · exact h
  · next hy =>
    simp [List.nodup_append, h, hy]

theorem setAdd_subset (s : List Nat) (y : Nat) : s ⊆ setAdd s y := by
  intro x hx
  rw [setAdd_mem_iff]
  exact Or.inl hx

theorem setAdd_mem_eq (s : List Nat) (y : Nat) (h : y ∈ s) : setAdd s y = s := by
  unfold setAdd
  rw [if_pos h]

theorem setAdd_length_not_mem (s : List Nat) (y : Nat) (h : y ∉ s) :
    (setAdd s y).length = s.length + 1 := by
  unfold setAdd
  rw [if_neg h]
  simp

theorem pickBest_fold_spec (inMST : List Nat) (l0 : List Edge) :
    ∀ (es : List Edge) (acc : Option Edge),
      (∀ e ∈ es, e ∈ l0) → (∀ b, acc = some b → b ∈ l0 ∧ crossing inMST b) →
      (∀ r, es.foldl (pbf inMST) acc = some r → r ∈ l0 ∧ crossing inMST r) ∧
      (es.foldl (pbf inMST) acc = none → acc = none ∧ ∀ e ∈ es, ¬ crossing inMST e)
  | [], acc, _, hacc => by
    refine ⟨fun r hr => hacc r hr, fun hn => ⟨hn, by simp⟩⟩
  | e :: es, acc, hsub, hacc => by
    have hsub' : ∀ x ∈ es, x ∈ l0 := fun x hx => hsub x (List.mem_cons_of_mem _ hx)
    have hstep : ∀ b, pbf inMST acc e = some b → b ∈ l0 ∧ crossing inMST b := by
      intro b hb
      unfold pbf at hb
      by_cases hcr : crossing inMST e
      · rw [if_pos hcr] at hb
        cases acc with
        | none =>
          cases hb
          exact ⟨hsub e (List.mem_cons_self _ _), hcr⟩
        | some b0 =>
          dsimp only at hb
          by_cases hc : e.cost < b0.cost
          · rw [if_pos hc] at hb
            cases hb
            exact ⟨hsub e (List.mem_cons_self _ _), hcr⟩
          · rw [if_neg hc] at hb
            cases hb
            exact hacc _ rfl
      · rw [if_neg hcr] at hb
        exact hacc b hb
    obtain ⟨ih1, ih2⟩ := pickBest_fold_spec inMST l0 es (pbf inMST acc e) hsub' hstep
    refine ⟨by simpa using ih1, ?_⟩
    intro hn
    simp only [List.foldl_cons] at hn
    obtain ⟨hacc', hes⟩ := ih2 hn
    have hne : ¬ crossing inMST e := by
      intro hcr
      unfold pbf at hacc'
      rw [if_pos hcr] at hacc'
      cases acc with
      | none => exact Option.noConfusion hacc'
      | some b0 =>
        dsimp only at hacc'
        by_cases hc : e.cost < b0.cost
        · rw [if_pos hc] at hacc'
          exact Option.noConfusion hacc'
        · rw [if_neg hc] at hacc'
          exact Option.noConfusion hacc'
    have hacc0 : acc = none := by
      unfold pbf at hacc'
      rw [if_neg hne] at hacc'
      exact hacc'
    refine ⟨hacc0, ?_⟩
    intro x hx
    rcases List.mem_cons.mp hx with rfl | hx'
    · exact hne
    · exact hes x hx'

theorem pickBestEdge_some (inMST : List Nat) (edges : List Edge) (e : Edge)
    (h : pickBestEdge inMST edges = some e) : e ∈ edges ∧ crossing inMST e :=
  (pickBest_fold_spec inMST edges edges none (fun _ hx => hx) (by simp)).1 e h

theorem pickBestEdge_none (inMST : List Nat) (edges : List Edge)
    (h : pickBestEdge inMST edges = none) : ∀ e ∈ edges, ¬ crossing inMST e :=
  ((pickBest_fold_spec inMST edges edges none (fun _ hx => hx) (by simp)).2 h).2

theorem chain_crossing (edges : List Edge) (S : List Nat) (u v : Nat)
    (h : Relation.ReflTransGen (edgeRel edges) u v) (hu : u ∈ S) (hv : v ∉ S) :
    ∃ a b, a ∈ S ∧ b ∉ S ∧ edgeRel edges a b := by
  induction h with
  | refl => exact absurd hu hv
  | @tail b c hab hbc ih =>
    by_cases hb : b ∈ S
    · exact ⟨b, c, hb, hv, hbc⟩
    · exact ih hb

theorem crossing_of_edgeRel (edges : List Edge) (S : List Nat) (a b : Nat)
    (ha : a ∈ S) (hb : b ∉ S) (hrel : edgeRel edges a b) :
    ∃ e ∈ edges, crossing S e := by
  obtain ⟨e, he, hor⟩ := hrel
  refine ⟨e, he, ?_⟩
  rcases hor with ⟨h1, h2⟩ | ⟨h1, h2⟩
  · left
    rw [h1, h2]
    exact ⟨ha, hb⟩
  · right
    rw [h1, h2]
    exact ⟨ha, hb⟩

theorem primGo_spec (edges : List Edge) (n : Nat)
    (hedge : ∀ e ∈ edges, e.efrom < n ∧ e.eto < n) :
    ∀ (fuel : Nat) (inMST : List Nat) (mstE : List Edge),
      inMST.Nodup → (∀ i ∈ inMST, i < n) → n ≤ fuel + inMST.length →
      mstE.length + 1 = inMST.length →
      (primGo edges n fuel inMST mstE).1.Nodup ∧
      (∀ i ∈ (primGo edges n fuel inMST mstE).1, i < n) ∧
      (primGo edges n fuel inMST mstE).2.length + 1 =
        (primGo edges n fuel inMST mstE).1.length ∧
      inMST ⊆ (primGo edges n fuel inMST mstE).1 ∧
      ((primGo edges n fuel inMST mstE).1.length < n →
        pickBestEdge (primGo edges n fuel inMST mstE).1 edges = none)
  | 0, inMST, mstE, hnd, hbd, hfuel, hcount => by
    unfold primGo
    dsimp only
    exact ⟨hnd, hbd, hcount, fun _ h => h, fun hlt => absurd hlt (by omega)⟩
  | fuel + 1, inMST, mstE, hnd, hbd, hfuel, hcount => by
    unfold primGo
    by_cases hlt : inMST.length < n
    · rw [if_pos hlt]
      cases hbest : pickBestEdge inMST edges with
      | none => exact ⟨hnd, hbd, hcount, fun _ h => h, fun _ => hbest⟩
      | some best =>
        obtain ⟨hmem, hcr⟩ := pickBestEdge_some inMST edges best hbest
        obtain ⟨hf, ht⟩ := hedge best hmem
        have hgrow : (setAdd (setAdd inMST best.efrom) best.eto).length =
            inMST.length + 1 := by
          rcases hcr with ⟨h1, h2⟩ | ⟨h1, h2⟩
          · rw [setAdd_mem_eq inMST best.efrom h1, setAdd_length_not_mem inMST best.eto h2]
          · have hmem2 : best.eto ∈ setAdd inMST best.efrom := setAdd_subset _ _ h1
            rw [setAdd_mem_eq _ best.eto hmem2,
              setAdd_length_not_mem inMST best.efrom h2]
        have hnd' : (setAdd (setAdd inMST best.efrom) best.eto).Nodup :=
          setAdd_nodup _ _ (setAdd_nodup _ _ hnd)
        have hbd' : ∀ i ∈ setAdd (setAdd inMST best.efrom) best.eto, i < n := by
          intro i hi
          rcases (setAdd_mem_iff _ _ _).mp hi with hi' | rfl
          · rcases (setAdd_mem_iff _ _ _).mp hi' with hi'' | rfl
            · exact hbd i hi''
            · exact hf
          · exact ht
        have hsub : inMST ⊆ setAdd (setAdd inMST best.efrom) best.eto :=
          fun x hx => setAdd_subset _ _ (setAdd_subset _ _ hx)
        obtain ⟨c1, c2, c3, c4, c5⟩ := primGo_spec edges n hedge fuel
          (setAdd (setAdd inMST best.efrom) best.eto) (mstE ++ [best])
          hnd' hbd' (by rw [hgrow]; omega) (by rw [hgrow]; simp; omega)
        exact ⟨c1, c2, c3, fun x hx => c4 (hsub hx), c5⟩
    · rw [if_neg hlt]
      exact ⟨hnd, hbd, hcount, fun _ h => h, fun hc => absurd hc hlt⟩

/-- Membership in the precomputed edge list: each edge joins two distinct
in-range point indices with a successful A* path between them. -/
theorem mstEdges_mem (map : Grid) (points : List Point2D) (ba bc : Nat) (e : Edge)
    (he : e ∈ mstEdges map points ba bc) :
    e.efrom < e.eto ∧ e.eto < points.length ∧
    findPathAStar map (points.getD e.efrom ⟨0, 0⟩) (points.getD e.eto ⟨0, 0⟩) ba bc =
      some e.path := by
  unfold mstEdges at he
  simp only [List.mem_flatMap, List.mem_filterMap, List.mem_range] at he
  obtain ⟨i, hi, j, hj, hij⟩ := he
  split at hij
  · next hlt =>
    cases hfind : findPathAStar map (points.getD i ⟨0, 0⟩) (points.getD j ⟨0, 0⟩) ba bc with
    | none =>
      rw [hfind] at hij
      exact absurd hij (by simp)
    | some pa =>
      rw [hfind] at hij
      simp only [Option.some.injEq] at hij
      subst hij
      exact ⟨hlt, hj, hfind⟩
  · exact absurd hij (by simp)

/-- Conversely, every reachable ordered pair of indices contributes an
edge. -/
theorem mstEdges_exists (map : Grid) (points : List Point2D) (ba bc : Nat)
    (i j : Nat) (hij : i < j) (hj : j < points.length) (pa : List Point2D)
    (hfind : findPathAStar map (points.getD i ⟨0, 0⟩) (points.getD j ⟨0, 0⟩) ba bc =
      some pa) :
    ∃ e ∈ mstEdges map points ba bc, e.efrom = i ∧ e.eto = j := by
  refine ⟨⟨i, j, pa.length, pa⟩, ?_, rfl, rfl⟩
  unfold mstEdges
  simp only [List.mem_flatMap, List.mem_filterMap, List.mem_range]
  refine ⟨i, by omega, j, hj, ?_⟩
  rw [if_pos hij, hfind]

theorem map_getD_range (points : List Point2D) :
    (List.range points.length).map (fun i => points.getD i ⟨0, 0⟩) = points := by
  apply List.ext_getElem
  · simp
  · intro i h1 h2
    simp only [List.getElem_map, List.getElem_range]
    exact List.getD_eq_getElem points ⟨0, 0⟩ h2

/-- Helper carrying the full `findMST` specification used by the claims
about the tree builder. -/
theorem findMST_spec_aux (map : Grid) (points : List Point2D) (ba bc : Nat)
    (hlen : 2 ≤ points.length) :
    (findMST map points ba bc).paths.length + 1 =
      (findMST map points ba bc).connectedPoints.length ∧
    ((findMST map points ba bc).connectedPoints ++
      (findMST map points ba bc).disconnectedPoints).Perm points ∧
    (∀ j, j < points.length →
      Relation.ReflTransGen (edgeRel (mstEdges map points ba bc)) 0 j →
      points.getD j ⟨0, 0⟩ ∈ (findMST map points ba bc).connectedPoints) ∧
    ((∀ i ∈ List.range points.length, ∀ j ∈ List.range points.length, i < j →
        (findPathAStar map (points.getD i ⟨0, 0⟩) (points.getD j ⟨0, 0⟩) ba bc).isSome =
          true) →
      (findMST map points ba bc).disconnectedPoints = []) := by
  have hn2 : ¬ (points.length < 2) := by omega
  have hedge : ∀ e ∈ mstEdges map points ba bc,
      e.efrom < points.length ∧ e.eto < points.length := by
    intro e he
    obtain ⟨h1, h2, _⟩ := mstEdges_mem map points ba bc e he
    omega
  obtain ⟨c1, c2, c3, c4, c5⟩ := primGo_spec (mstEdges map points ba bc)
    points.length hedge points.length [0] []
    (by simp)
    (by intro i hi; simp only [List.mem_singleton] at hi; omega)
    (by simp)
    (by simp)
  have hzero : 0 ∈ (primGo (mstEdges map points ba bc) points.length points.length
      [0] []).1 := c4 (List.mem_singleton.mpr rfl)
  -- every index chained to 0 is in the final tree
  have hconn : ∀ j, j < points.length →
      Relation.ReflTransGen (edgeRel (mstEdges map points ba bc)) 0 j →
      j ∈ (primGo (mstEdges map points ba bc) points.length points.length [0] []).1 := by
    intro j hj hchain
    by_contra hj'
    have hlt : (primGo (mstEdges map points ba bc) points.length points.length
        [0] []).1.length < points.length := by
      by_contra hge
      have hcard : ((primGo (mstEdges map points ba bc) points.length points.length
          [0] []).1.toFinset : Finset Nat) = Finset.range points.length := by
        apply Finset.eq_of_subset_of_card_le
        · intro x hx
          rw [List.mem_toFinset] at hx
          rw [Finset.mem_range]
          exact c2 x hx
        · rw [List.toFinset_card_of_nodup c1, Finset.card_range]
          omega
      have : j ∈ (primGo (mstEdges map points ba bc) points.length points.length
          [0] []).1.toFinset := by
        rw [hcard, Finset.mem_range]
        exact hj
      exact hj' (List.mem_toFinset.mp this)
    have hnone := c5 hlt
    obtain ⟨a, b, ha, hb, hrel⟩ := chain_crossing (mstEdges map points ba bc)
      (primGo (mstEdges map points ba bc) points.length points.length [0] []).1
      0 j hchain hzero hj'
    obtain ⟨e, he, hcr⟩ := crossing_of_edgeRel (mstEdges map points ba bc)
      (primGo (mstEdges map points ba bc) points.length points.length [0] []).1
      a b ha hb hrel
    exact pickBestEdge_none _ _ hnone e he hcr
  refine ⟨?_, ?_, ?_, ?_⟩
  · unfold findMST
    rw [if_neg hn2]
    dsimp only
    simpa using c3
  · unfold findMST
    rw [if_neg hn2]
    dsimp only
    have hperm : ((primGo (mstEdges map points ba bc) points.length points.length
        [0] []).1 ++
        (List.range points.length).filter (fun i => decide (i ∉
          (primGo (mstEdges map points ba bc) points.length points.length [0] []).1))).Perm
        (List.range points.length) := by
      apply List.perm_of_nodup_nodup_toFinset_eq
      · rw [List.nodup_append]
        refine ⟨c1, List.Nodup.filter _ (List.nodup_range _), ?_⟩
        intro x hx hx'
        have := List.of_mem_filter hx'
        simp only [decide_eq_true_eq] at this
        exact this hx
      · exact List.nodup_range _
      · ext x
        simp only [List.toFinset_append, Finset.mem_union, List.mem_toFinset,
          List.mem_filter, List.mem_range, decide_eq_true_eq]
        constructor
        · rintro (hx | ⟨hx, _⟩)
          · exact c2 x hx
          · exact hx
        · intro hx
          by_cases hmem : x ∈ (primGo (mstEdges map points ba bc) points.length
              points.length [0] []).1
          · exact Or.inl hmem
          · exact Or.inr ⟨hx, hmem⟩
    have := hperm.map (fun i => points.getD i ⟨0, 0⟩)
    rw [map_getD_range, List.map_append] at this
    exact this
  · intro j hj hchain
    unfold findMST
    rw [if_neg hn2]
    dsimp only
    exact List.mem_map.mpr ⟨j, hconn j hj hchain, rfl⟩
  · intro hreach
    unfold findMST
    rw [if_neg hn2]
    dsimp only
    have hfilter : (List.range points.length).filter (fun i => decide (i ∉
        (primGo (mstEdges map points ba bc) points.length points.length [0] []).1)) =
        [] := by
      rw [List.filter_eq_nil_iff]
      intro i hi
      rw [List.mem_range] at hi
      simp only [decide_eq_true_eq, not_not]
      rcases Nat.eq_zero_or_pos i with rfl | hpos
      · exact hzero
      · have hsome := hreach 0 (List.mem_range.mpr (by omega)) i
          (List.mem_range.mpr hi) hpos
        obtain ⟨pa, hpa⟩ := Option.isSome_iff_exists.mp hsome
        obtain ⟨e, he, hef, het⟩ := mstEdges_exists map points ba bc 0 i hpos hi pa hpa
        refine hconn i hi (Relation.ReflTransGen.single ?_)
        exact ⟨e, he, Or.inl ⟨hef, het⟩⟩
    rw [hfilter]
    rfl

/-- C5: for every grid and list of at least two points, `findMST` returns
exactly `|connected points| − 1` path segments (one per Prim edge, each of
which joined a tree-internal to a tree-external point when selected), the
connected and disconnected point lists partition the input points, every
point joined to `points[0]` through a chain of successful pairwise A*
connections ends up connected (unreachable points never block the rest),
and when every pair of points is mutually reachable no point is left
disconnected.  Termination is intrinsic: `findMST` is a total function. -/
theorem findMST_tree_properties (map : Grid) (points : List Point2D) (ba bc : Nat)
    (hlen : 2 ≤ points.length) :
    (findMST map points ba bc).paths.length + 1 =
      (findMST map points ba bc).connectedPoints.length ∧
    ((findMST map points ba bc).connectedPoints ++
      (findMST map points ba bc).disconnectedPoints).Perm points ∧
    (∀ j, j < points.length →
      Relation.ReflTransGen (edgeRel (mstEdges map points ba bc)) 0 j →
      points.getD j ⟨0, 0⟩ ∈ (findMST map points ba bc).connectedPoints) ∧
    ((∀ i ∈ List.range points.length, ∀ j ∈ List.range points.length, i < j →
        (findPathAStar map (points.getD i ⟨0, 0⟩) (points.getD j ⟨0, 0⟩) ba bc).isSome =
          true) →
      (findMST map points ba bc).disconnectedPoints = []) :=
  findMST_spec_aux map points ba bc hlen

/-- Witness for C5 on the 2×1 all-walkable grid with both cells as points. -/
theorem findMST_tree_properties_witness :
    ((findMST rowGrid2 pts2 0 0).paths.length + 1 =
      (findMST rowGrid2 pts2 0 0).connectedPoints.length) ∧
    (findMST rowGrid2 pts2 0 0).disconnectedPoints = [] :=
  ⟨(findMST_tree_properties rowGrid2 pts2 0 0 (by decide)).1,
   (findMST_tree_properties rowGrid2 pts2 0 0 (by decide)).2.2.2 (by decide)⟩

/-! ## Incremental vs batch MST under mutual reachability -/

theorem sortInsert_length {α : Type} (le : α → α → Bool) (a : α) :
    ∀ l : List α, (sortInsert le a l).length = l.length + 1
  | [] => rfl
  | b :: l => by
    unfold sortInsert
    split
    · rfl
    · simp [sortInsert_length le a l]

theorem stableSort_length {α : Type} (le : α → α → Bool) :
    ∀ l : List α, (stableSort le l).length = l.length
  | [] => rfl
  | a :: l => by
    unfold stableSort
    rw [sortInsert_length, stableSort_length le l]
    rfl

/-- If some previously existing point is reachable from the new point, the
incremental update keeps the disconnected list empty. -/
theorem updateMSTWithNewPoint_disc (map : Grid) (currentPoints : List Point2D)
    (newPoint : Point2D) (cur : MSTUpdate) (ba bc : Nat)
    (hne : ∃ q ∈ currentPoints, (findPathAStar map newPoint q ba bc).isSome = true)
    (hdisc : cur.disconnectedPOIs = []) :
    (updateMSTWithNewPoint map currentPoints newPoint cur ba bc).disconnectedPOIs =
      [] := by
  obtain ⟨q, hq, hsome⟩ := hne
  obtain ⟨pa, hpa⟩ := Option.isSome_iff_exists.mp hsome
  have hc : (⟨pa.length, pa⟩ : Cand) ∈ currentPoints.filterMap (fun existing =>
      match findPathAStar map newPoint existing ba bc with
      | some path => some (⟨path.length, path⟩ : Cand)
      | none => none) := by
    rw [List.mem_filterMap]
    exact ⟨q, hq, by rw [hpa]⟩
  unfold updateMSTWithNewPoint
  dsimp only
  cases hs : (stableSort (fun a b => decide (a.cost ≤ b.cost))
      (currentPoints.filterMap (fun existing =>
        match findPathAStar map newPoint existing ba bc with
        | some path => some (⟨path.length, path⟩ : Cand)
        | none => none))).head? with
  | none =>
    exfalso
    rw [List.head?_eq_none_iff] at hs
    have hlen := stableSort_length (fun a b => decide (a.cost ≤ b.cost))
      (currentPoints.filterMap (fun existing =>
        match findPathAStar map newPoint existing ba bc with
        | some path => some (⟨path.length, path⟩ : Cand)
        | none => none))
    rw [hs] at hlen
    have hnil : currentPoints.filterMap (fun existing =>
        match findPathAStar map newPoint existing ba bc with
        | some path => some (⟨path.length, path⟩ : Cand)
        | none => none) = [] := by
      apply List.length_eq_zero.mp
      simpa using hlen.symm
    rw [hnil] at hc
    simp at hc
  | some best =>
    rw [hdisc]
    rfl

/-- Along the incremental fold, reachability keeps every inserted point
connected. -/
theorem incremental_fold_disc (map : Grid) (points : List Point2D) (ba bc : Nat)
    (hreach : ∀ p ∈ points, ∀ q ∈ points,
      (findPathAStar map p q ba bc).isSome = true) :
    ∀ (rest prev : List Point2D) (st : MSTUpdate),
      (∀ r ∈ rest, r ∈ points) → (∀ r ∈ prev, r ∈ points) → prev ≠ [] →
      st.disconnectedPOIs = [] →
      ((rest.foldl (fun acc p =>
          (acc.1 ++ [p], updateMSTWithNewPoint map acc.1 p acc.2 ba bc))
        (prev, st)).2).disconnectedPOIs = []
  | [], _, _, _, _, _, hd => hd
  | p :: rest, prev, st, hrest, hprev, hne, hd => by
    simp only [List.foldl_cons]
    refine incremental_fold_disc map points ba bc hreach rest (prev ++ [p]) _
      (fun r hr => hrest r (List.mem_cons_of_mem _ hr)) ?_ (by simp) ?_
    · intro r hr
      rcases List.mem_append.mp hr with hr' | hr'
      · exact hprev r hr'
      · rw [List.mem_singleton.mp hr']
        exact hrest p (List.mem_cons_self _ _)
    · obtain ⟨q0, hq0⟩ := List.exists_mem_of_ne_nil prev hne
      exact updateMSTWithNewPoint_disc map prev p st ba bc
        ⟨q0, hq0, hreach p (hrest p (List.mem_cons_self _ _)) q0 (hprev q0 hq0)⟩ hd

/-- C4 (amended): when every pair of points is mutually reachable within
the bridging parameters, adding points one at a time with the incremental
update produces the same connected/disconnected partition as a one-shot
`findMST` recomputation — both connect every point and leave the
disconnected set empty.  (In general the partitions differ, see the
counterexample: the incremental update may attach a new point to a point
that is itself disconnected from the tree.) -/
theorem mst_incremental_batch_agree_of_reachable (map : Grid)
    (points : List Point2D) (ba bc : Nat) (hlen : 2 ≤ points.length)
    (hreach : ∀ p ∈ points, ∀ q ∈ points,
      (findPathAStar map p q ba bc).isSome = true) :
    (findMST map points ba bc).disconnectedPoints = [] ∧
    (incrementalMST map points ba bc).disconnectedPOIs = [] := by
  constructor
  · refine (findMST_spec_aux map points ba bc hlen).2.2.2 ?_
    intro i hi j hj _
    rw [List.mem_range] at hi hj
    have hmi : points.getD i ⟨0, 0⟩ ∈ points := by
      rw [List.getD_eq_getElem points ⟨0, 0⟩ hi]
      exact List.getElem_mem hi
    have hmj : points.getD j ⟨0, 0⟩ ∈ points := by
      rw [List.getD_eq_getElem points ⟨0, 0⟩ hj]
      exact List.getElem_mem hj
    exact hreach _ hmi _ hmj
  · rcases points with _ | ⟨p0, tl⟩
    · simp at hlen
    rcases tl with _ | ⟨p1, rest⟩
    · simp at hlen
    unfold incrementalMST
    dsimp only
    refine incremental_fold_disc map (p0 :: p1 :: rest) ba bc hreach rest [p0, p1] _
      (fun r hr => List.mem_cons_of_mem _ (List.mem_cons_of_mem _ hr)) ?_ (by simp) ?_
    · intro r hr
      rcases List.mem_cons.mp hr with rfl | hr'
      · exact List.mem_cons_self _ _
      · rw [List.mem_singleton.mp hr']
        exact List.mem_cons_of_mem _ (List.mem_cons_self _ _)
    · refine (findMST_spec_aux map [p0, p1] ba bc (by simp)).2.2.2 ?_
      intro i hi j hj hij
      rw [List.mem_range] at hi hj
      simp only [List.length_cons, List.length_nil] at hi hj
      have hii : i = 0 ∧ j = 1 := by omega
      obtain ⟨rfl, rfl⟩ := hii
      exact hreach p0 (List.mem_cons_self _ _) p1
        (List.mem_cons_of_mem _ (List.mem_cons_self _ _))

/-- Witness for the amended C4 on the 2×1 all-walkable grid. -/
theorem mst_incremental_batch_agree_witness :
    (findMST rowGrid2 pts2 0 0).disconnectedPoints = [] ∧
    (incrementalMST rowGrid2 pts2 0 0).disconnectedPOIs = [] :=
  mst_incremental_batch_agree_of_reachable rowGrid2 pts2 0 0 (by decide) (by decide)

/-! ## A* optimality and completeness: association-map lemmas -/

theorem assocGet_set_self {β : Type} (m : List (AKey × β)) (k : AKey) (v : β) :
    assocGet (assocSet m k v) k = some v := by
  unfold assocGet assocSet
  rw [List.find?_cons_of_pos _ (by simp)]
  rfl

theorem find_filter_ne {β : Type} (k k2 : AKey) (h : k2 ≠ k) :
    ∀ m : List (AKey × β),
      (m.filter (fun e => decide (¬ e.1 = k))).find? (fun e => decide (e.1 = k2)) =
        m.find? (fun e => decide (e.1 = k2))
  | [] => rfl
  | e :: t => by
    by_cases he : e.1 = k
    · rw [List.filter_cons_of_neg (by simp [he]),
        List.find?_cons_of_neg _ (by simp [he]; exact fun hh => h hh.symm)]
      exact find_filter_ne k k2 h t
    · rw [List.filter_cons_of_pos (by simp [he])]
      by_cases h2 : e.1 = k2
      · rw [List.find?_cons_of_pos _ (by simp [h2]), List.find?_cons_of_pos _ (by simp [h2])]
      · rw [List.find?_cons_of_neg _ (by simp [h2]), List.find?_cons_of_neg _ (by simp [h2])]
        exact find_filter_ne k k2 h t

theorem assocGet_set_ne {β : Type} (m : List (AKey × β)) (k : AKey) (v : β)
    (k2 : AKey) (h : k2 ≠ k) :
    assocGet (assocSet m k v) k2 = assocGet m k2 := by
  unfold assocGet assocSet
  rw [List.find?_cons_of_neg _ (by simp; exact fun hh => h hh.symm)]
  rw [find_filter_ne k k2 h m]

theorem assocGet_key {β : Type} (m : List (AKey × β)) (k : AKey) (v : β)
    (h : assocGet m k = some v) : (k, v) ∈ m := by
  unfold assocGet at h
  rcases hf : m.find? (fun e => decide (e.1 = k)) with _ | e
  · rw [hf] at h
    cases h
  · rw [hf] at h
    have h1 := List.find?_some hf
    have h2 := List.mem_of_find?_eq_some hf
    simp only [decide_eq_true_eq] at h1
    simp only [Option.map_some', Option.some.injEq] at h
    rcases e with ⟨ek, ev⟩
    simp only at h1 h
    subst h1
    subst h
    exact h2

theorem assocSet_mem {β : Type} (m : List (AKey × β)) (k : AKey) (v : β)
    (kn : AKey × β) (h : kn ∈ assocSet m k v) : kn = (k, v) ∨ kn ∈ m := by
  unfold assocSet at h
  rcases List.mem_cons.mp h with h1 | h1
  · exact Or.inl h1
  · exact Or.inr (List.mem_of_mem_filter h1)

theorem betterThan_false (m : List (AKey × NodeA)) (k : AKey) (g : Nat)
    (h : betterThan m k g = false) :
    ∃ ex, assocGet m k = some ex ∧ ex.g ≤ g := by
  unfold betterThan at h
  rcases hget : assocGet m k with _ | ex
  · rw [hget] at h
    cases h
  · rw [hget] at h
    refine ⟨ex, rfl, ?_⟩
    have := of_decide_eq_false h
    omega

theorem betterThan_true_of_some (m : List (AKey × NodeA)) (k : AKey) (g : Nat)
    (ex : NodeA) (hget : assocGet m k = some ex) (h : betterThan m k g = true) :
    g < ex.g := by
  unfold betterThan at h
  rw [hget] at h
  exact of_decide_eq_true h

/-! ## Geometry of legal steps -/

theorem and_true_parts {a b : Bool} (h : (a && b) = true) : a = true ∧ b = true := by
  simp only [Bool.and_eq_true] at h
  exact h

theorem adjacent_mem_neighborsOf (cx cy : Int) (q : Point2D)
    (h : adjacentB ⟨cx, cy⟩ q = true) : q ∈ neighborsOf cx cy := by
  simp only [adjacentB, decide_eq_true_eq] at h
  have h4 : (q.x = cx + 1 ∧ q.y = cy) ∨ (q.x = cx - 1 ∧ q.y = cy) ∨
      (q.x = cx ∧ q.y = cy + 1) ∨ (q.x = cx ∧ q.y = cy - 1) := by
    omega
  rcases q with ⟨qx, qy⟩
  simp only at h4
  unfold neighborsOf
  rcases h4 with ⟨h1, h2⟩ | ⟨h1, h2⟩ | ⟨h1, h2⟩ | ⟨h1, h2⟩ <;> subst h1 <;> subst h2 <;> simp

theorem chain_junction :
    ∀ (l1 l2 : List Point2D) (z : Point2D), chainAdjB (l1 ++ l2) = true →
      l1.getLast? = some z →
      chainAdjB (z :: l2) = true ∧ (l1 ++ l2).getLast? = (z :: l2).getLast?
  | [], _, _, _, hz => by cases hz
  | [x], l2, z, hc, hz => by
    simp only [List.getLast?_singleton, Option.some.injEq] at hz
    subst hz
    exact ⟨hc, rfl⟩
  | x :: y :: t, l2, z, hc, hz => by
    rw [List.getLast?_cons_cons] at hz
    have hc2 : chainAdjB ((y :: t) ++ l2) = true := by
      have hh : chainAdjB ((x :: y :: t) ++ l2) =
          (adjacentB x y && chainAdjB ((y :: t) ++ l2)) := rfl
      rw [hh] at hc
      exact (and_true_parts hc).2
    obtain ⟨ih1, ih2⟩ := chain_junction (y :: t) l2 z hc2 hz
    refine ⟨ih1, ?_⟩
    rw [← ih2]
    show (x :: ((y :: t) ++ l2)).getLast? = ((y :: t) ++ l2).getLast?
    exact List.getLast?_cons_cons

theorem manh_le_len :
    ∀ (l : List Point2D) (c1 : Point2D), chainAdjB (c1 :: l) = true →
      ∀ ce, (c1 :: l).getLast? = some ce →
        manhatten c1.x ce.x c1.y ce.y ≤ l.length
  | [], c1, _, ce, hl => by
    simp only [List.getLast?_singleton, Option.some.injEq] at hl
    subst hl
    unfold manhatten
    omega
  | c2 :: t, c1, hc, ce, hl => by
    have h12 : adjacentB c1 c2 = true := (and_true_parts hc).1
    have hct : chainAdjB (c2 :: t) = true := (and_true_parts hc).2
    have hl2 : (c2 :: t).getLast? = some ce := by
      rw [← hl]
      exact List.getLast?_cons_cons.symm
    have ih := manh_le_len t c2 hct ce hl2
    simp only [adjacentB, decide_eq_true_eq] at h12
    unfold manhatten at ih ⊢
    simp only [List.length_cons]
    omega

theorem manh_triangle (x1 x2 x3 y1 y2 y3 : Int) :
    manhatten x1 x3 y1 y3 ≤ manhatten x1 x2 y1 y2 + manhatten x2 x3 y2 y3 := by
  unfold manhatten
  omega

theorem length_le_sum : ∀ l : List Nat, (∀ x ∈ l, 1 ≤ x) → l.length ≤ l.sum
  | [], _ => Nat.le_refl 0
  | a :: t, h => by
    simp only [List.length_cons, List.sum_cons]
    have ht := length_le_sum t (fun x hx => h x (List.mem_cons_of_mem _ hx))
    have ha := h a (List.mem_cons_self _ _)
    omega

theorem drop_one_append {α : Type} (l1 l2 : List α) (h : l1 ≠ []) :
    (l1 ++ l2).drop 1 = l1.drop 1 ++ l2 := by
  cases l1 with
  | nil => exact absurd rfl h
  | cons a t => simp

theorem pathCost_append (grid : Grid) (bc : Nat) (l1 l2 : List Point2D) (h : l1 ≠ []) :
    pathCost grid bc (l1 ++ l2) =
      pathCost grid bc l1 + (l2.map (stepPrice grid bc)).sum := by
  unfold pathCost
  rw [drop_one_append l1 l2 h, List.map_append, List.sum_append]

theorem bridgesOn_append (grid : Grid) (l1 l2 : List Point2D) (h : l1 ≠ []) :
    bridgesOn grid (l1 ++ l2) =
      bridgesOn grid l1 + l2.countP (fun q => ! walkableAt grid q.x q.y) := by
  unfold bridgesOn
  rw [drop_one_append l1 l2 h, List.countP_append]

/-! ## Decomposing a state-realizing path at its last step -/

theorem validTo_destruct (grid : Grid) (start : Point2D) (bs bc : Nat) (k : AKey)
    (p : List Point2D) (hv : ValidTo grid start bs k p) :
    (p = [start] ∧ k = (start.x, start.y, 0)) ∨
    (∃ p1 k1, p = p1 ++ [kcell k] ∧ p1 ≠ [] ∧ p1.length + 1 = p.length ∧
      ValidTo grid start bs k1 p1 ∧ LegalStep grid bs k1 k ∧
      pathCost grid bc p = pathCost grid bc p1 + stepPrice grid bc (kcell k)) := by
  obtain ⟨h1, h2, h3, h4, h5, h6⟩ := hv
  rcases p with _ | ⟨a, t⟩
  · cases h1
  rcases t with _ | ⟨b, t'⟩
  · left
    simp only [List.head?_cons, Option.some.injEq] at h1
    simp only [List.getLast?_singleton, Option.some.injEq] at h2
    rcases k with ⟨kx, ky, kbv⟩
    have h2' : start = kcell (kx, ky, kbv) := by
      rw [← h1]
      exact h2
    have hx : kx = start.x := (congrArg Point2D.x h2').symm
    have hy : ky = start.y := (congrArg Point2D.y h2').symm
    have hb : kbv = 0 := by
      have hz : bridgesOn grid [a] = 0 := rfl
      rw [hz] at h5
      exact h5.symm
    refine ⟨by rw [h1], ?_⟩
    rw [hx, hy, hb]
  · right
    have hne : (a :: b :: t' : List Point2D) ≠ [] := by simp
    have hsplit := (List.dropLast_append_getLast hne).symm
    have hql : (a :: b :: t').getLast? = some ((a :: b :: t').getLast hne) :=
      List.getLast?_eq_getLast _ hne
    have hq : (a :: b :: t').getLast hne = kcell k := by
      rw [hql] at h2
      exact (Option.some.injEq _ _).mp h2
    rw [hq] at hsplit
    have hp1ne : (a :: b :: t').dropLast ≠ [] := by
      rw [List.dropLast_cons₂]
      simp
    have hc1 : ((a :: b :: t').dropLast).getLast? =
        some (((a :: b :: t').dropLast).getLast hp1ne) :=
      List.getLast?_eq_getLast _ hp1ne
    have hchain : chainAdjB ((a :: b :: t').dropLast) = true ∧
        adjacentB (((a :: b :: t').dropLast).getLast hp1ne) (kcell k) = true := by
      rw [hsplit] at h3
      rw [chainAdjB_snoc _ _ _ hc1] at h3
      exact and_true_parts h3
    have hdropall : ((a :: b :: t').dropLast.drop 1).all (inBoundsB grid) = true ∧
        inBoundsB grid (kcell k) = true := by
      rw [hsplit, drop_one_append _ _ hp1ne, List.all_append] at h4
      have h4' := and_true_parts h4
      refine ⟨h4'.1, ?_⟩
      have := h4'.2
      simp only [List.all_cons, List.all_nil, Bool.and_true] at this
      exact this
    have hbr : bridgesOn grid (a :: b :: t') =
        bridgesOn grid ((a :: b :: t').dropLast) +
          (if walkableAt grid (kcell k).x (kcell k).y then 0 else 1) := by
      conv_lhs => rw [hsplit]
      rw [bridgesOn_append _ _ _ hp1ne]
      congr 1
      simp only [List.countP_cons, List.countP_nil, Nat.zero_add]
      by_cases hw : walkableAt grid (kcell k).x (kcell k).y
      · simp [hw]
      · simp [hw]
    have hhead : ((a :: b :: t').dropLast).head? = some start := by
      rw [List.dropLast_cons₂]
      simp only [List.head?_cons, Option.some.injEq]
      simp only [List.head?_cons, Option.some.injEq] at h1
      exact h1
    refine ⟨(a :: b :: t').dropLast,
      ((((a :: b :: t').dropLast).getLast hp1ne).x,
        (((a :: b :: t').dropLast).getLast hp1ne).y,
        bridgesOn grid ((a :: b :: t').dropLast)), hsplit, hp1ne, ?_, ?_, ?_, ?_⟩
    · rw [List.length_dropLast]
      simp only [List.length_cons]
      omega
    · refine ⟨hhead, ?_, hchain.1, hdropall.1, rfl, ?_⟩
      · exact hc1
      · show bridgesOn grid ((a :: b :: t').dropLast) ≤ bs
        rw [hbr] at h5
        unfold kb at h5 h6
        omega
    · refine ⟨hchain.2, ?_, ?_, h6⟩
      · simp only [inBoundsB, decide_eq_true_eq] at hdropall
        exact hdropall.2
      · show kb k = if walkableAt grid (kcell k).x (kcell k).y then
            bridgesOn grid ((a :: b :: t').dropLast)
          else bridgesOn grid ((a :: b :: t').dropLast) + 1
        unfold kb at h5 ⊢
        rw [hbr] at h5
        by_cases hw : walkableAt grid (kcell k).x (kcell k).y
        · rw [if_pos hw]
          rw [if_pos hw] at h5
          omega
        · rw [if_neg hw]
          rw [if_neg hw] at h5
          omega
    · conv_lhs => rw [hsplit]
      rw [pathCost_append _ _ _ _ hp1ne]
      simp

/-! ## The frontier lemma -/

theorem nodeOK_fh (grid : Grid) (start endP : Point2D) (bs bc : Nat) (n : NodeA)
    (hok : NodeOK grid start endP bs bc n) :
    n.h = manhatten n.x endP.x n.y endP.y ∧ n.f = n.g + n.h := by
  rcases n with ⟨x, y, g, h, f, par, b⟩
  cases par with
  | none => exact ⟨hok.2.2.2.2.1, hok.2.2.2.2.2⟩
  | some p => exact ⟨hok.2.2.2.2.2.2.1, hok.2.2.2.2.2.2.2⟩

/-- Along any path realizing an unclosed state there is a prefix realizing
an unclosed state that the node map prices no higher than the prefix's
cost.  The cost bound needs the consistency condition; the existence of the
map entry does not. -/
theorem frontier_lemma (grid : Grid) (start endP : Point2D) (bs bc : Nat)
    (openS : MinHeap NodeA) (closed : List AKey) (nmap : List (AKey × NodeA))
    (hinv : AStarInv grid start endP bs bc openS closed nmap) :
    ∀ (N : Nat) (p : List Point2D) (k : AKey), p.length ≤ N →
      ValidTo grid start bs k p → k ∉ closed →
      ∃ p1 k1 m1, ValidTo grid start bs k1 p1 ∧ k1 ∉ closed ∧
        assocGet nmap k1 = some m1 ∧
        ((bs = 0 ∨ 1 ≤ bc) → m1.g ≤ pathCost grid bc p1) ∧
        (p1 = p ∨ ∃ p2, p = p1 ++ p2 ∧ p2 ≠ [])
  | 0, p, k, hlen, hv, _ => by
    obtain ⟨h1, _, _, _, _, _⟩ := hv
    cases p
    · cases h1
    · simp at hlen
  | N + 1, p, k, hlen, hv, hk => by
    rcases validTo_destruct grid start bs bc k p hv with
      ⟨hp, hkk⟩ | ⟨p1, k1, hsplit, hne, hlen1, hv1, hstep, hcost⟩
    · subst hkk
      obtain ⟨m, hm, hm0⟩ := hinv.startMap hk
      refine ⟨p, _, m, hv, hk, hm, ?_, Or.inl rfl⟩
      intro _
      rw [hm0]
      exact Nat.zero_le _
    · by_cases hk1 : k1 ∈ closed
      · obtain ⟨m, m2, hmk1, hmk, hb2⟩ := hinv.closedExp k1 hk1 k hstep hk
        refine ⟨p, k, m2, hv, hk, hmk, ?_, Or.inl rfl⟩
        intro Hc
        obtain ⟨mo, hmo, hbo⟩ := hinv.closedOpt k1 hk1
        have hmeq : m = mo := by
          rw [hmk1] at hmo
          exact (Option.some.injEq _ _).mp hmo
        calc m2.g ≤ m.g + stepPrice grid bc (kcell k) := hb2
          _ ≤ pathCost grid bc p1 + stepPrice grid bc (kcell k) :=
            Nat.add_le_add_right (hmeq ▸ hbo Hc p1 hv1) _
          _ = pathCost grid bc p := hcost.symm
      · have ih := frontier_lemma grid start endP bs bc openS closed nmap hinv N p1 k1
          (by omega) hv1 hk1
        obtain ⟨q1, kq, mq, hvq, hkq, hmq, hbq, hrest⟩ := ih
        refine ⟨q1, kq, mq, hvq, hkq, hmq, hbq, Or.inr ?_⟩
        rcases hrest with he | ⟨p2, hp2, _⟩
        · exact ⟨[kcell k], by rw [hsplit, he], by simp⟩
        · exact ⟨p2 ++ [kcell k], by rw [hsplit, hp2, List.append_assoc], by simp⟩

/-- The popped root's `f` is a lower bound on the cost of any path to any
unclosed state, plus that state's heuristic — the heart of the optimality
argument, using that the Manhattan heuristic is consistent when every step
costs at least 1. -/
theorem popped_le (grid : Grid) (start endP : Point2D) (bs bc : Nat)
    (openS : MinHeap NodeA) (closed : List AKey) (nmap : List (AKey × NodeA))
    (hinv : AStarInv grid start endP bs bc openS closed nmap)
    (Hc : bs = 0 ∨ 1 ≤ bc)
    (pr : Nat) (current : NodeA) (rest : List (Nat × NodeA))
    (hdata : openS.data = (pr, current) :: rest)
    (ks : AKey) (pth : List Point2D) (hks : ks ∉ closed)
    (hvp : ValidTo grid start bs ks pth) :
    current.g + current.h ≤
      pathCost grid bc pth + manhatten (kcell ks).x endP.x (kcell ks).y endP.y := by
  obtain ⟨p1, k1, m1, hv1, hk1, hm1, hb1, hdec⟩ :=
    frontier_lemma grid start endP bs bc openS closed nmap hinv pth.length pth ks
      (Nat.le_refl _) hvp hks
  have hmem : ((m1.f, m1) : Nat × NodeA) ∈ openS.data := hinv.sync k1 m1 hk1 hm1
  have hr : openS.data[0]? = some (pr, current) := by
    rw [hdata]
    simp
  obtain ⟨i, hi, hie⟩ := List.mem_iff_getElem.mp hmem
  have hmin : pr ≤ m1.f :=
    root_min openS.data hinv.heap (pr, current) hr i (m1.f, m1)
      (by rw [List.getElem?_eq_getElem hi, hie])
  have hcurok := hinv.entries (pr, current) (by rw [hdata]; exact List.mem_cons_self _ _)
  have hfpr : pr = current.f := hcurok.1
  obtain ⟨hch, hcf⟩ := nodeOK_fh grid start endP bs bc current hcurok.2
  have hm1mem := assocGet_key nmap k1 m1 hm1
  have hm1ok := hinv.mapOK (k1, m1) hm1mem
  have hkey1 : k1 = nkey m1 := hm1ok.1
  obtain ⟨hm1h, hm1f⟩ := nodeOK_fh grid start endP bs bc m1 hm1ok.2
  have hm1h' : m1.h = manhatten (kcell k1).x endP.x (kcell k1).y endP.y := by
    rw [hkey1]
    exact hm1h
  have hgbound := hb1 Hc
  have hp1ne : p1 ≠ [] := by
    obtain ⟨ha, _, _, _, _, _⟩ := hv1
    intro hnil
    rw [hnil] at ha
    cases ha
  have hlast1 : p1.getLast? = some (kcell k1) := hv1.2.1
  rcases hdec with heq | ⟨p2, hp2, hp2ne⟩
  · -- the frontier state is the target state itself
    have hcells : kcell k1 = kcell ks := by
      have h2 : pth.getLast? = some (kcell ks) := hvp.2.1
      rw [heq] at hlast1
      rw [hlast1] at h2
      exact (Option.some.injEq _ _).mp h2
    rw [heq] at hgbound
    rw [hcells] at hm1h'
    omega
  · -- walk the suffix, using consistency of the heuristic
    have hchain : chainAdjB pth = true := hvp.2.2.1
    rw [hp2] at hchain
    obtain ⟨hj1, hj2⟩ := chain_junction p1 p2 (kcell k1) hchain hlast1
    have hlastp : (kcell k1 :: p2).getLast? = some (kcell ks) := by
      rw [← hj2, ← hp2]
      exact hvp.2.1
    have hml := manh_le_len p2 (kcell k1) hj1 (kcell ks) hlastp
    have hcostp : pathCost grid bc pth =
        pathCost grid bc p1 + (p2.map (stepPrice grid bc)).sum := by
      rw [hp2]
      exact pathCost_append grid bc p1 p2 hp1ne
    have hprice : ∀ x ∈ p2, 1 ≤ stepPrice grid bc x := by
      intro x hx
      rcases Hc with hbs | hbc
      · have hbr : bridgesOn grid pth = kb ks := hvp.2.2.2.2.1
        have hle : kb ks ≤ bs := hvp.2.2.2.2.2
        have hzero : (pth.drop 1).countP (fun q => ! walkableAt grid q.x q.y) = 0 := by
          unfold bridgesOn at hbr
          omega
        have hxmem : x ∈ pth.drop 1 := by
          rw [hp2, drop_one_append p1 p2 hp1ne]
          exact List.mem_append_right _ hx
        have hwalk := List.countP_eq_zero.mp hzero x hxmem
        simp only [Bool.not_eq_eq_eq_not, Bool.not_true] at hwalk
        unfold stepPrice
        rw [if_pos (by simpa using hwalk)]
      · unfold stepPrice
        by_cases hw : walkableAt grid x.x x.y
        · rw [if_pos hw]
        · rw [if_neg hw]
          exact hbc
    have hsum : p2.length ≤ (p2.map (stepPrice grid bc)).sum := by
      have := length_le_sum (p2.map (stepPrice grid bc)) (by
        intro y hy
        obtain ⟨x, hx, hxy⟩ := List.mem_map.mp hy
        rw [← hxy]
        exact hprice x hx)
      simpa using this
    have htri := manh_triangle (kcell k1).x (kcell ks).x endP.x
      (kcell k1).y (kcell ks).y endP.y
    omega

/-! ## Preservation of the invariant through the neighbour fold -/

theorem legal_key_eq (grid : Grid) (bs : Nat) (current : NodeA) (k2 : AKey)
    (q : Point2D) (hstep : LegalStep grid bs (nkey current) k2)
    (hcell : kcell k2 = q) :
    k2 = ((q.x, q.y, if walkableAt grid q.x q.y = true then current.bridgesUsed
      else current.bridgesUsed + 1) : AKey) := by
  rcases k2 with ⟨k2x, k2y, k2b⟩
  have hx : k2x = q.x := congrArg Point2D.x hcell
  have hy : k2y = q.y := congrArg Point2D.y hcell
  have hb := hstep.2.2.1
  rw [hcell] at hb
  subst hx
  subst hy
  simp only [Prod.mk.injEq]
  exact ⟨trivial, trivial, hb⟩

theorem relax_step_all (grid : Grid) (start endP : Point2D) (bs bc : Nat)
    (closed1 : List AKey) (current : NodeA)
    (hcur : NodeOK grid start endP bs bc current)
    (q : Point2D) (hadj : adjacentB ⟨current.x, current.y⟩ q = true)
    (acc : MinHeap NodeA × List (AKey × NodeA))
    (hmid : MidInv grid start endP bs bc closed1 acc) :
    MidInv grid start endP bs bc closed1
        (relaxNeighbor grid endP bs bc closed1 current acc q) ∧
    (∀ k, k ∈ closed1 →
      assocGet (relaxNeighbor grid endP bs bc closed1 current acc q).2 k =
        assocGet acc.2 k) ∧
    (∀ k m, assocGet acc.2 k = some m →
      ∃ m2, assocGet (relaxNeighbor grid endP bs bc closed1 current acc q).2 k = some m2 ∧
        m2.g ≤ m.g) ∧
    (∀ k2, LegalStep grid bs (nkey current) k2 → k2 ∉ closed1 → kcell k2 = q →
      ∃ m2, assocGet (relaxNeighbor grid endP bs bc closed1 current acc q).2 k2 = some m2 ∧
        m2.g ≤ current.g + stepPrice grid bc (kcell k2)) ∧
    (relaxNeighbor grid endP bs bc closed1 current acc q).1.data.length ≤
      acc.1.data.length + 1 := by
  unfold relaxNeighbor
  dsimp only
  by_cases h1 : q.x < 0 ∨ (gridW grid : Int) ≤ q.x ∨ q.y < 0 ∨ (gridH grid : Int) ≤ q.y
  · rw [if_pos h1]
    refine ⟨hmid, fun k _ => rfl, fun k m hm => ⟨m, hm, Nat.le_refl _⟩, ?_, by omega⟩
    intro k2 hstep _ hcell
    exfalso
    have hin := hstep.2.1
    rw [hcell] at hin
    unfold inBoundsI at hin
    omega
  rw [if_neg h1]
  by_cases h2 : bs < (if walkableAt grid q.x q.y = true then current.bridgesUsed
      else current.bridgesUsed + 1)
  · rw [if_pos h2]
    refine ⟨hmid, fun k _ => rfl, fun k m hm => ⟨m, hm, Nat.le_refl _⟩, ?_, by omega⟩
    intro k2 hstep _ hcell
    exfalso
    have hkeq := legal_key_eq grid bs current k2 q hstep hcell
    have hle := hstep.2.2.2
    rw [hkeq] at hle
    unfold kb at hle
    simp only at hle
    omega
  rw [if_neg h2]
  by_cases h3 : ((q.x, q.y, if walkableAt grid q.x q.y = true then current.bridgesUsed
      else current.bridgesUsed + 1) : AKey) ∈ closed1
  · rw [if_pos h3]
    refine ⟨hmid, fun k _ => rfl, fun k m hm => ⟨m, hm, Nat.le_refl _⟩, ?_, by omega⟩
    intro k2 hstep hk2 hcell
    exfalso
    have hkeq := legal_key_eq grid bs current k2 q hstep hcell
    rw [hkeq] at hk2
    exact hk2 h3
  rw [if_neg h3]
  by_cases h4 : betterThan acc.2 ((q.x, q.y,
      if walkableAt grid q.x q.y = true then current.bridgesUsed
        else current.bridgesUsed + 1) : AKey)
      (current.g + (if walkableAt grid q.x q.y = true then 1 else bc)) = true
  · rw [if_pos h4]
    have hnodeok : NodeOK grid start endP bs bc
        (NodeA.mk q.x q.y
          (current.g + (if walkableAt grid q.x q.y = true then 1 else bc))
          (manhatten q.x endP.x q.y endP.y)
          (current.g + (if walkableAt grid q.x q.y = true then 1 else bc) +
            manhatten q.x endP.x q.y endP.y)
          (some current)
          (if walkableAt grid q.x q.y = true then current.bridgesUsed
            else current.bridgesUsed + 1)) := by
      refine ⟨hcur, hadj, ?_, rfl, by omega, rfl, rfl, rfl⟩
      unfold inBoundsI
      omega
    refine ⟨⟨?_, ?_, ?_, ?_, ?_⟩, ?_, ?_, ?_, ?_⟩
    · exact push_inv _ _ _ hmid.heap
    · intro e he
      rcases List.mem_cons.mp ((push_perm _ _ _).mem_iff.mp he) with heq | hein
      · subst heq
        exact ⟨rfl, hnodeok⟩
      · exact hmid.entries e hein
    · intro kn hkn
      rcases assocSet_mem _ _ _ _ hkn with heq | hin
      · subst heq
        exact ⟨rfl, hnodeok⟩
      · exact hmid.mapOK kn hin
    · intro k n hkcl hget
      by_cases hkq : k = ((q.x, q.y,
          if walkableAt grid q.x q.y = true then current.bridgesUsed
            else current.bridgesUsed + 1) : AKey)
      · subst hkq
        rw [assocGet_set_self] at hget
        cases hget
        exact (push_perm _ _ _).mem_iff.mpr (List.mem_cons_self _ _)
      · rw [assocGet_set_ne _ _ _ _ hkq] at hget
        exact (push_perm _ _ _).mem_iff.mpr
          (List.mem_cons_of_mem _ (hmid.sync k n hkcl hget))
    · intro e he
      rcases List.mem_cons.mp ((push_perm _ _ _).mem_iff.mp he) with heq | hein
      · subst heq
        exact ⟨_, assocGet_set_self _ _ _, Nat.le_refl _⟩
      · obtain ⟨m, hm, hle⟩ := hmid.mapLB e hein
        by_cases hkq : nkey e.2 = ((q.x, q.y,
            if walkableAt grid q.x q.y = true then current.bridgesUsed
              else current.bridgesUsed + 1) : AKey)
        · rw [hkq] at hm
          have hlt := betterThan_true_of_some acc.2 _ _ m hm h4
          refine ⟨_, by rw [hkq]; exact assocGet_set_self _ _ _, ?_⟩
          show current.g + (if walkableAt grid q.x q.y = true then 1 else bc) ≤ e.2.g
          omega
        · exact ⟨m, by rw [assocGet_set_ne _ _ _ _ hkq]; exact hm, hle⟩
    · intro k hk
      have hkq : k ≠ ((q.x, q.y,
          if walkableAt grid q.x q.y = true then current.bridgesUsed
            else current.bridgesUsed + 1) : AKey) := by
        intro heq
        rw [heq] at hk
        exact h3 hk
      exact assocGet_set_ne _ _ _ _ hkq
    · intro k m hm
      by_cases hkq : k = ((q.x, q.y,
          if walkableAt grid q.x q.y = true then current.bridgesUsed
            else current.bridgesUsed + 1) : AKey)
      · rw [hkq] at hm
        have hlt := betterThan_true_of_some acc.2 _ _ m hm h4
        refine ⟨_, by rw [hkq]; exact assocGet_set_self _ _ _, ?_⟩
        show current.g + (if walkableAt grid q.x q.y = true then 1 else bc) ≤ m.g
        omega
      · exact ⟨m, by rw [assocGet_set_ne _ _ _ _ hkq]; exact hm, Nat.le_refl _⟩
    · intro k2 hstep hk2 hcell
      have hkeq := legal_key_eq grid bs current k2 q hstep hcell
      rw [hkeq]
      refine ⟨_, assocGet_set_self _ _ _, ?_⟩
      show current.g + (if walkableAt grid q.x q.y = true then 1 else bc) ≤
        current.g + stepPrice grid bc (kcell ((q.x, q.y,
          if walkableAt grid q.x q.y = true then current.bridgesUsed
            else current.bridgesUsed + 1) : AKey))
      exact Nat.le_refl _
    · rw [(push_perm _ _ _).length_eq]
      simp
  · rw [if_neg h4]
    have h4' : betterThan acc.2 ((q.x, q.y,
        if walkableAt grid q.x q.y = true then current.bridgesUsed
          else current.bridgesUsed + 1) : AKey)
        (current.g + (if walkableAt grid q.x q.y = true then 1 else bc)) = false := by
      rcases hbt : betterThan acc.2 ((q.x, q.y,
          if walkableAt grid q.x q.y = true then current.bridgesUsed
            else current.bridgesUsed + 1) : AKey)
          (current.g + (if walkableAt grid q.x q.y = true then 1 else bc)) with _ | _
      · rfl
      · exact absurd hbt h4
    obtain ⟨ex, hex, hexg⟩ := betterThan_false acc.2 _ _ h4'
    refine ⟨hmid, fun k _ => rfl, fun k m hm => ⟨m, hm, Nat.le_refl _⟩, ?_, by omega⟩
    intro k2 hstep hk2 hcell
    have hkeq := legal_key_eq grid bs current k2 q hstep hcell
    rw [hkeq]
    refine ⟨ex, hex, ?_⟩
    calc ex.g ≤ current.g + (if walkableAt grid q.x q.y = true then 1 else bc) := hexg
      _ = _ := rfl

theorem relax_fold_all (grid : Grid) (start endP : Point2D) (bs bc : Nat)
    (closed1 : List AKey) (current : NodeA)
    (hcur : NodeOK grid start endP bs bc current) :
    ∀ (ps : List Point2D) (acc : MinHeap NodeA × List (AKey × NodeA)),
      (∀ r ∈ ps, adjacentB ⟨current.x, current.y⟩ r = true) →
      MidInv grid start endP bs bc closed1 acc →
      MidInv grid start endP bs bc closed1
          (ps.foldl (relaxNeighbor grid endP bs bc closed1 current) acc) ∧
      (∀ k, k ∈ closed1 →
        assocGet (ps.foldl (relaxNeighbor grid endP bs bc closed1 current) acc).2 k =
          assocGet acc.2 k) ∧
      (∀ k m, assocGet acc.2 k = some m →
        ∃ m2, assocGet (ps.foldl (relaxNeighbor grid endP bs bc closed1 current) acc).2 k =
            some m2 ∧ m2.g ≤ m.g) ∧
      (∀ k2, LegalStep grid bs (nkey current) k2 → k2 ∉ closed1 →
        (kcell k2 ∈ ps ∨ ∃ m2, assocGet acc.2 k2 = some m2 ∧
          m2.g ≤ current.g + stepPrice grid bc (kcell k2)) →
        ∃ m2, assocGet (ps.foldl (relaxNeighbor grid endP bs bc closed1 current) acc).2 k2 =
            some m2 ∧ m2.g ≤ current.g + stepPrice grid bc (kcell k2)) ∧
      (ps.foldl (relaxNeighbor grid endP bs bc closed1 current) acc).1.data.length ≤
        acc.1.data.length + ps.length
  | [], acc, _, hmid => by
    refine ⟨hmid, fun _ _ => rfl, fun k m hm => ⟨m, hm, Nat.le_refl _⟩, ?_, by simp⟩
    intro k2 _ _ hpre
    rcases hpre with h | h
    · cases h
    · exact h
  | r :: ps, acc, hadjs, hmid => by
    have hstep := relax_step_all grid start endP bs bc closed1 current hcur r
      (hadjs r (List.mem_cons_self _ _)) acc hmid
    obtain ⟨hmidq, huq, hiq, hnq, hlq⟩ := hstep
    have ih := relax_fold_all grid start endP bs bc closed1 current hcur ps
      (relaxNeighbor grid endP bs bc closed1 current acc r)
      (fun x hx => hadjs x (List.mem_cons_of_mem _ hx)) hmidq
    obtain ⟨hmidf, huf, hif, hnf, hlf⟩ := ih
    simp only [List.foldl_cons]
    refine ⟨hmidf, ?_, ?_, ?_, ?_⟩
    · intro k hk
      rw [huf k hk, huq k hk]
    · intro k m hm
      obtain ⟨m1, hm1, hle1⟩ := hiq k m hm
      obtain ⟨m2, hm2, hle2⟩ := hif k m1 hm1
      exact ⟨m2, hm2, Nat.le_trans hle2 hle1⟩
    · intro k2 hst hk2 hpre
      rcases hpre with hmem | ⟨m2, hm2, hb2⟩
      · rcases List.mem_cons.mp hmem with heq | hin
        · obtain ⟨m1, hm1, hb1⟩ := hnq k2 hst hk2 heq
          exact hnf k2 hst hk2 (Or.inr ⟨m1, hm1, hb1⟩)
        · exact hnf k2 hst hk2 (Or.inl hin)
      · obtain ⟨m1, hm1, hle1⟩ := hiq k2 m2 hm2
        exact hnf k2 hst hk2 (Or.inr ⟨m1, hm1, Nat.le_trans hle1 hb2⟩)
    · simp only [List.length_cons]
      omega

/-! ## The key space is finite -/

theorem nodeOK_key_mem (grid : Grid) (start endP : Point2D) (bs bc : Nat) :
    ∀ n : NodeA, NodeOK grid start endP bs bc n → nkey n ∈ keyFinset grid bs start
  | .mk x y g h f none b, hok => by
    obtain ⟨hx, hy, _, hb, _, _⟩ := hok
    subst hx
    subst hy
    subst hb
    exact Finset.mem_insert_self _ _
  | .mk x y g h f (some p) b, hok => by
    obtain ⟨_, _, hin, _, hble, _, _, _⟩ := hok
    unfold inBoundsI at hin
    apply Finset.mem_insert_of_mem
    rw [Finset.mem_image]
    refine ⟨(x.toNat, y.toNat, b), ?_, ?_⟩
    · simp only [Finset.mem_product, Finset.mem_range]
      refine ⟨?_, ?_, ?_⟩ <;> omega
    · show ((x.toNat : Int), (y.toNat : Int), b) = ((x, y, b) : AKey)
      rw [Int.toNat_of_nonneg hin.1, Int.toNat_of_nonneg hin.2.2.1]

theorem keyFinset_card (grid : Grid) (bs : Nat) (start : Point2D) :
    (keyFinset grid bs start).card ≤ gridW grid * gridH grid * (bs + 1) + 1 := by
  unfold keyFinset
  refine Nat.le_trans (Finset.card_insert_le _ _) ?_
  have h1 : ((Finset.range (gridW grid) ×ˢ Finset.range (gridH grid) ×ˢ
      Finset.range (bs + 1)).image
        (fun t => (((t.1 : Nat) : Int), ((t.2.1 : Nat) : Int), t.2.2))).card ≤
      gridW grid * gridH grid * (bs + 1) := by
    refine Nat.le_trans Finset.card_image_le ?_
    rw [Finset.card_product, Finset.card_product, Finset.card_range,
      Finset.card_range, Finset.card_range, Nat.mul_assoc]
  omega

theorem closed_length_le (closed : List AKey) (F : Finset AKey)
    (hnd : closed.Nodup) (hsub : ∀ k ∈ closed, k ∈ F) :
    closed.length ≤ F.card := by
  have h1 : closed.toFinset.card = closed.length := List.toFinset_card_of_nodup hnd
  rw [← h1]
  exact Finset.card_le_card (fun k hk => hsub k (List.mem_toFinset.mp hk))

/-! ## Re-establishing the invariant across one loop iteration -/

theorem empty_no_path (grid : Grid) (start endP : Point2D) (bs bc : Nat)
    (openS : MinHeap NodeA) (closed : List AKey) (nmap : List (AKey × NodeA))
    (hinv : AStarInv grid start endP bs bc openS closed nmap)
    (hempty : openS.data = []) :
    ∀ ks pth, kcell ks = endP → ¬ ValidTo grid start bs ks pth := by
  intro ks pth hcell hvp
  have hks : ks ∉ closed := by
    intro hmem
    exact hinv.closedNotGoal ks hmem (by rw [hcell]; exact ⟨rfl, rfl⟩)
  obtain ⟨p1, k1, m1, _, hk1, hm1, _, _⟩ :=
    frontier_lemma grid start endP bs bc openS closed nmap hinv pth.length pth ks
      (Nat.le_refl _) hvp hks
  have hmem := hinv.sync k1 m1 hk1 hm1
  rw [hempty] at hmem
  cases hmem

theorem pop_skip_inv (grid : Grid) (start endP : Point2D) (bs bc : Nat)
    (openS : MinHeap NodeA) (closed : List AKey) (nmap : List (AKey × NodeA))
    (hinv : AStarInv grid start endP bs bc openS closed nmap)
    (pr : Nat) (current : NodeA) (rest : List (Nat × NodeA))
    (hdata : openS.data = (pr, current) :: rest)
    (os1 : MinHeap NodeA) (hperm : os1.data.Perm rest) (hinvh : HeapInvL os1.data)
    (hck : ((current.x, current.y, current.bridgesUsed) : AKey) ∈ closed) :
    AStarInv grid start endP bs bc os1 closed nmap := by
  refine ⟨hinvh, ?_, hinv.mapOK, hinv.closedNodup, hinv.closedValid,
    hinv.closedNotGoal, ?_, ?_, hinv.startMap, hinv.closedOpt, hinv.closedExp⟩
  · intro e he
    exact hinv.entries e (by rw [hdata]; exact List.mem_cons_of_mem _ (hperm.subset he))
  · intro k n hk hget
    have hmem := hinv.sync k n hk hget
    rw [hdata] at hmem
    rcases List.mem_cons.mp hmem with heq | hin
    · exfalso
      have hkeq : k = nkey n := (hinv.mapOK (k, n) (assocGet_key nmap k n hget)).1
      have hne : n = current := congrArg Prod.snd heq
      rw [hkeq, hne] at hk
      exact hk hck
    · exact hperm.mem_iff.mpr hin
  · intro e he
    exact hinv.mapLB e (by rw [hdata]; exact List.mem_cons_of_mem _ (hperm.subset he))

theorem expand_inv (grid : Grid) (start endP : Point2D) (bs bc : Nat)
    (openS : MinHeap NodeA) (closed : List AKey) (nmap : List (AKey × NodeA))
    (hinv : AStarInv grid start endP bs bc openS closed nmap)
    (pr : Nat) (current : NodeA) (rest : List (Nat × NodeA))
    (hdata : openS.data = (pr, current) :: rest)
    (os1 : MinHeap NodeA) (hperm : os1.data.Perm rest) (hinvh : HeapInvL os1.data)
    (hck : ((current.x, current.y, current.bridgesUsed) : AKey) ∉ closed)
    (hgoal : ¬(current.x = endP.x ∧ current.y = endP.y)) :
    AStarInv grid start endP bs bc
      ((neighborsOf current.x current.y).foldl
        (relaxNeighbor grid endP bs bc
          (((current.x, current.y, current.bridgesUsed) : AKey) :: closed) current)
        (os1, nmap)).1
      (((current.x, current.y, current.bridgesUsed) : AKey) :: closed)
      ((neighborsOf current.x current.y).foldl
        (relaxNeighbor grid endP bs bc
          (((current.x, current.y, current.bridgesUsed) : AKey) :: closed) current)
        (os1, nmap)).2 ∧
    ((neighborsOf current.x current.y).foldl
      (relaxNeighbor grid endP bs bc
        (((current.x, current.y, current.bridgesUsed) : AKey) :: closed) current)
      (os1, nmap)).1.data.length ≤ os1.data.length + 4 := by
  have hcurmem : ((pr, current) : Nat × NodeA) ∈ openS.data := by
    rw [hdata]
    exact List.mem_cons_self _ _
  have hcurok := hinv.entries _ hcurmem
  obtain ⟨hch, hcf⟩ := nodeOK_fh grid start endP bs bc current hcurok.2
  -- the map entry for the closed key holds exactly the popped g
  obtain ⟨m, hm, hmle⟩ := hinv.mapLB _ hcurmem
  have hmsync := hinv.sync _ m hck hm
  have hr : openS.data[0]? = some (pr, current) := by
    rw [hdata]
    simp
  obtain ⟨i, hi, hie⟩ := List.mem_iff_getElem.mp hmsync
  have hmin : pr ≤ m.f :=
    root_min openS.data hinv.heap (pr, current) hr i (m.f, m)
      (by rw [List.getElem?_eq_getElem hi, hie])
  have hmok := hinv.mapOK (_, m) (assocGet_key nmap _ m hm)
  have hkeym : ((current.x, current.y, current.bridgesUsed) : AKey) = nkey m := hmok.1
  obtain ⟨hmh, hmf⟩ := nodeOK_fh grid start endP bs bc m hmok.2
  have hmx : current.x = m.x := congrArg Prod.fst hkeym
  have hmy : current.y = m.y := congrArg (fun t => t.2.1) hkeym
  have hheq : current.h = m.h := by
    rw [hch, hmh, hmx, hmy]
  have hmg : m.g = current.g := by
    have hfpr : pr = current.f := hcurok.1
    have hmle' : m.g ≤ current.g := hmle
    omega
  -- optimality of the popped g among all paths to the closed key
  have hopt : (bs = 0 ∨ 1 ≤ bc) →
      ∀ p, ValidTo grid start bs ((current.x, current.y, current.bridgesUsed) : AKey) p →
        current.g ≤ pathCost grid bc p := by
    intro Hc p hvp
    have hple := popped_le grid start endP bs bc openS closed nmap hinv Hc pr current rest
      hdata _ p hck hvp
    have hcell : manhatten
        (kcell ((current.x, current.y, current.bridgesUsed) : AKey)).x endP.x
        (kcell ((current.x, current.y, current.bridgesUsed) : AKey)).y endP.y =
        current.h := by
      rw [hch]
      rfl
    omega
  -- the fold over the four neighbours
  have hmid0 : MidInv grid start endP bs bc
      (((current.x, current.y, current.bridgesUsed) : AKey) :: closed) (os1, nmap) := by
    refine ⟨hinvh, ?_, hinv.mapOK, ?_, ?_⟩
    · intro e he
      exact hinv.entries e (by rw [hdata]; exact List.mem_cons_of_mem _ (hperm.subset he))
    · intro k n hk hget
      have hk1 : k ∉ closed := fun hh => hk (List.mem_cons_of_mem _ hh)
      have hk2 : k ≠ ((current.x, current.y, current.bridgesUsed) : AKey) :=
        fun hh => hk (hh ▸ List.mem_cons_self _ _)
      have hmem := hinv.sync k n hk1 hget
      rw [hdata] at hmem
      rcases List.mem_cons.mp hmem with heq | hin
      · exfalso
        have hkeq : k = nkey n := (hinv.mapOK (k, n) (assocGet_key nmap k n hget)).1
        have hne : n = current := congrArg Prod.snd heq
        rw [hkeq, hne] at hk2
        exact hk2 rfl
      · exact hperm.mem_iff.mpr hin
    · intro e he
      exact hinv.mapLB e (by rw [hdata]; exact List.mem_cons_of_mem _ (hperm.subset he))
  obtain ⟨hmidf, hunt, himp, hnew, hlenf⟩ :=
    relax_fold_all grid start endP bs bc
      (((current.x, current.y, current.bridgesUsed) : AKey) :: closed) current hcurok.2
      (neighborsOf current.x current.y) (os1, nmap)
      (fun r hr => neighborsOf_adjacent current.x current.y r hr) hmid0
  constructor
  · refine ⟨hmidf.heap, hmidf.entries, hmidf.mapOK, ?_, ?_, ?_, hmidf.sync,
      hmidf.mapLB, ?_, ?_, ?_⟩
    · exact List.nodup_cons.mpr ⟨hck, hinv.closedNodup⟩
    · intro k hk
      rcases List.mem_cons.mp hk with heq | hin
      · rw [heq]
        exact nodeOK_key_mem grid start endP bs bc current hcurok.2
      · exact hinv.closedValid k hin
    · intro k hk
      rcases List.mem_cons.mp hk with heq | hin
      · rw [heq]
        exact hgoal
      · exact hinv.closedNotGoal k hin
    · intro hsk
      have hsk1 : ((start.x, start.y, 0) : AKey) ∉ closed :=
        fun hh => hsk (List.mem_cons_of_mem _ hh)
      obtain ⟨m0, hm0, h00⟩ := hinv.startMap hsk1
      obtain ⟨m1, hm1, hle1⟩ := himp _ m0 hm0
      exact ⟨m1, hm1, by omega⟩
    · intro k hk
      rcases List.mem_cons.mp hk with heq | hin
      · subst heq
        refine ⟨m, ?_, ?_⟩
        · rw [hunt _ (List.mem_cons_self _ _)]
          exact hm
        · intro Hc p hp
          rw [hmg]
          exact hopt Hc p hp
      · obtain ⟨mo, hgo, hbo⟩ := hinv.closedOpt k hin
        exact ⟨mo, by rw [hunt k (List.mem_cons_of_mem _ hin)]; exact hgo, hbo⟩
    · intro k hk k2 hstep hk2
      rcases List.mem_cons.mp hk with heq | hin
      · subst heq
        have hmemn : kcell k2 ∈ neighborsOf current.x current.y :=
          adjacent_mem_neighborsOf current.x current.y (kcell k2) hstep.1
        obtain ⟨m2, hm2, hb2⟩ := hnew k2 hstep hk2 (Or.inl hmemn)
        refine ⟨m, m2, ?_, hm2, ?_⟩
        · rw [hunt _ (List.mem_cons_self _ _)]
          exact hm
        · omega
      · have hk2' : k2 ∉ closed := fun hh => hk2 (List.mem_cons_of_mem _ hh)
        obtain ⟨mo, m2o, hgo, hg2o, hbo⟩ := hinv.closedExp k hin k2 hstep hk2'
        obtain ⟨m2', hm2', hle'⟩ := himp k2 m2o hg2o
        refine ⟨mo, m2', ?_, hm2', by omega⟩
        rw [hunt k (List.mem_cons_of_mem _ hin)]
        exact hgo
  · exact hlenf

/-! ## The main loop theorem: optimality and completeness -/

theorem astarGo_main (grid : Grid) (start endP : Point2D) (bs bc : Nat) :
    ∀ (fuel : Nat) (openS : MinHeap NodeA) (closed : List AKey)
      (nmap : List (AKey × NodeA)),
      AStarInv grid start endP bs bc openS closed nmap →
      6 * ((keyFinset grid bs start).card - closed.length) + openS.data.length ≤ fuel →
      (∀ n, astarGo grid endP bs bc fuel openS closed nmap = some n →
        ((bs = 0 ∨ 1 ≤ bc) → ∀ ks pth, kcell ks = endP → ValidTo grid start bs ks pth →
          n.g ≤ pathCost grid bc pth)) ∧
      (astarGo grid endP bs bc fuel openS closed nmap = none →
        ∀ ks pth, kcell ks = endP → ¬ ValidTo grid start bs ks pth)
  | 0, openS, closed, nmap, hinv, hfuel => by
    have hempty : openS.data = [] := by
      have hl : openS.data.length = 0 := by omega
      exact List.length_eq_zero.mp hl
    constructor
    · intro n hn
      simp [astarGo] at hn
    · intro _
      exact empty_no_path grid start endP bs bc openS closed nmap hinv hempty
  | fuel + 1, openS, closed, nmap, hinv, hfuel => by
    rcases hpop : MinHeap.pop openS with ⟨o, os1⟩
    cases o with
    | none =>
      have hempty : openS.data = [] := by
        rcases hd : openS.data with _ | ⟨e, rest⟩
        · rfl
        · have hf := pop_fst openS e rest hd
          rw [hpop] at hf
          cases hf
      constructor
      · intro n hn
        unfold astarGo at hn
        rw [hpop] at hn
        simp at hn
      · intro _
        exact empty_no_path grid start endP bs bc openS closed nmap hinv hempty
    | some current =>
      obtain ⟨pr, rest, hdata, hperm⟩ := pop_eq_some openS current os1 hpop
      have hlen : openS.data.length = rest.length + 1 := by
        rw [hdata]
        simp
      have hos1len : os1.data.length = rest.length := hperm.length_eq
      have hinvh1 : HeapInvL os1.data := by
        have hpi := pop_inv openS hinv.heap
        rw [hpop] at hpi
        exact hpi
      by_cases hck : ((current.x, current.y, current.bridgesUsed) : AKey) ∈ closed
      · have hinv1 := pop_skip_inv grid start endP bs bc openS closed nmap hinv pr current
          rest hdata os1 hperm hinvh1 hck
        have ih := astarGo_main grid start endP bs bc fuel os1 closed nmap hinv1 (by omega)
        constructor
        · intro n hn
          unfold astarGo at hn
          rw [hpop] at hn
          simp only at hn
          rw [if_pos hck] at hn
          exact ih.1 n hn
        · intro hn
          unfold astarGo at hn
          rw [hpop] at hn
          simp only at hn
          rw [if_pos hck] at hn
          exact ih.2 hn
      · by_cases hgoal : current.x = endP.x ∧ current.y = endP.y
        · constructor
          · intro n hn Hc ks pth hcell hvp
            unfold astarGo at hn
            rw [hpop] at hn
            simp only at hn
            rw [if_neg hck, if_pos hgoal] at hn
            cases hn
            have hks : ks ∉ closed := fun hmem =>
              hinv.closedNotGoal ks hmem (by rw [hcell]; exact ⟨rfl, rfl⟩)
            have hple := popped_le grid start endP bs bc openS closed nmap hinv Hc pr
              current rest hdata ks pth hks hvp
            obtain ⟨hch, _⟩ := nodeOK_fh grid start endP bs bc current
              (hinv.entries (pr, current)
                (by rw [hdata]; exact List.mem_cons_self _ _)).2
            have h1 : current.h = manhatten (kcell ks).x endP.x (kcell ks).y endP.y := by
              rw [hcell, hch, hgoal.1, hgoal.2]
            omega
          · intro hn
            unfold astarGo at hn
            rw [hpop] at hn
            simp only at hn
            rw [if_neg hck, if_pos hgoal] at hn
            cases hn
        · obtain ⟨hinv2, hlen2⟩ := expand_inv grid start endP bs bc openS closed nmap hinv
            pr current rest hdata os1 hperm hinvh1 hck hgoal
          have hclen :
              ((((current.x, current.y, current.bridgesUsed) : AKey) :: closed)).length ≤
                (keyFinset grid bs start).card :=
            closed_length_le _ _ hinv2.closedNodup hinv2.closedValid
          have ih := astarGo_main grid start endP bs bc fuel _ _ _ hinv2 (by
            simp only [List.length_cons] at hclen ⊢
            omega)
          constructor
          · intro n hn
            unfold astarGo at hn
            rw [hpop] at hn
            simp only at hn
            rw [if_neg hck, if_neg hgoal] at hn
            exact ih.1 n hn
          · intro hn
            unfold astarGo at hn
            rw [hpop] at hn
            simp only at hn
            rw [if_neg hck, if_neg hgoal] at hn
            exact ih.2 hn

/-- The initial open heap, closed set and node map satisfy the invariant. -/
theorem initial_inv (grid : Grid) (start endP : Point2D) (bs bc : Nat) :
    AStarInv grid start endP bs bc
      ((MinHeap.emptyHeap : MinHeap NodeA).push
        (NodeA.mk start.x start.y 0 (manhatten start.x endP.x start.y endP.y)
          (manhatten start.x endP.x start.y endP.y) none 0)
        (NodeA.mk start.x start.y 0 (manhatten start.x endP.x start.y endP.y)
          (manhatten start.x endP.x start.y endP.y) none 0).f)
      []
      (assocSet [] (start.x, start.y, 0)
        (NodeA.mk start.x start.y 0 (manhatten start.x endP.x start.y endP.y)
          (manhatten start.x endP.x start.y endP.y) none 0)) := by
  have hsnok : NodeOK grid start endP bs bc
      (NodeA.mk start.x start.y 0 (manhatten start.x endP.x start.y endP.y)
        (manhatten start.x endP.x start.y endP.y) none 0) :=
    ⟨rfl, rfl, rfl, rfl, rfl, (Nat.zero_add _).symm⟩
  have hemptyinv : HeapInvL ((MinHeap.emptyHeap : MinHeap NodeA).data) := by
    intro i p c hi hp hc
    simp [MinHeap.emptyHeap] at hc
  refine ⟨push_inv _ _ _ hemptyinv, ?_, ?_, List.nodup_nil, ?_, ?_, ?_, ?_, ?_, ?_, ?_⟩
  · intro e he
    rcases List.mem_cons.mp ((push_perm _ _ _).mem_iff.mp he) with heq | hein
    · subst heq
      exact ⟨rfl, hsnok⟩
    · simp [MinHeap.emptyHeap] at hein
  · intro kn hkn
    rcases assocSet_mem _ _ _ _ hkn with heq | hin
    · subst heq
      exact ⟨rfl, hsnok⟩
    · cases hin
  · intro k hk
    cases hk
  · intro k hk
    cases hk
  · intro k n hk hget
    by_cases hkq : k = ((start.x, start.y, 0) : AKey)
    · subst hkq
      rw [assocGet_set_self] at hget
      cases hget
      exact (push_perm _ _ _).mem_iff.mpr (List.mem_cons_self _ _)
    · rw [assocGet_set_ne _ _ _ _ hkq] at hget
      simp [assocGet] at hget
  · intro e he
    rcases List.mem_cons.mp ((push_perm _ _ _).mem_iff.mp he) with heq | hein
    · subst heq
      exact ⟨_, assocGet_set_self _ _ _, Nat.le_refl _⟩
    · simp [MinHeap.emptyHeap] at hein
  · intro _
    exact ⟨_, assocGet_set_self _ _ _, rfl⟩
  · intro k hk
    cases hk
  · intro k hk
    cases hk

/-- Node-level optimality (for a consistent instance) and completeness of
the bridging A* search. -/
theorem findPathAStarNode_main (grid : Grid) (start endP : Point2D) (bs bc : Nat) :
    (∀ n, findPathAStarNode grid start endP bs bc = some n →
      ((bs = 0 ∨ 1 ≤ bc) → ∀ ks pth, kcell ks = endP → ValidTo grid start bs ks pth →
        n.g ≤ pathCost grid bc pth)) ∧
    (findPathAStarNode grid start endP bs bc = none →
      ∀ ks pth, kcell ks = endP → ¬ ValidTo grid start bs ks pth) := by
  unfold findPathAStarNode
  dsimp only
  refine astarGo_main grid start endP bs bc (astarFuel grid bs) _ [] _
    (initial_inv grid start endP bs bc) ?_
  have hc := keyFinset_card grid bs start
  have hml := (push_perm (MinHeap.emptyHeap : MinHeap NodeA)
    (NodeA.mk start.x start.y 0 (manhatten start.x endP.x start.y endP.y)
      (manhatten start.x endP.x start.y endP.y) none 0)
    (NodeA.mk start.x start.y 0 (manhatten start.x endP.x start.y endP.y)
      (manhatten start.x endP.x start.y endP.y) none 0).f).length_eq
  rw [hml]
  unfold astarFuel
  simp only [MinHeap.emptyHeap, List.length_cons, List.length_nil]
  omega

/-! ## Path-level consequences -/

/-- Any returned path is a valid bridged path (no side conditions). -/
theorem found_path_validB (grid : Grid) (start endP : Point2D) (bs bc : Nat)
    (p : List Point2D) (hfind : findPathAStar grid start endP bs bc = some p) :
    validPathB grid bs start endP p = true := by
  unfold findPathAStar at hfind
  rcases hnode : findPathAStarNode grid start endP bs bc with _ | n
  · rw [hnode] at hfind
    cases hfind
  · rw [hnode] at hfind
    simp only [Option.map_some'] at hfind
    obtain ⟨hok, hx, hy⟩ := findPathAStarNode_ok grid start endP bs bc n hnode
    obtain ⟨h1, h2, h3, h4, h5, h6, h7, _, _⟩ := nodeOK_trace grid start endP bs bc n hok
    have hend : (⟨n.x, n.y⟩ : Point2D) = endP := by
      rw [hx, hy]
    rw [hend] at h2
    cases hfind
    unfold validPathB
    rw [h1, h2, h3, h4, h5]
    simp [h7]

/-- Any returned path costs exactly the returned node's `g`. -/
theorem found_path_gcost (grid : Grid) (start endP : Point2D) (bs bc : Nat)
    (p : List Point2D) (hfind : findPathAStar grid start endP bs bc = some p) :
    ∃ n, findPathAStarNode grid start endP bs bc = some n ∧
      pathCost grid bc p = n.g := by
  unfold findPathAStar at hfind
  rcases hnode : findPathAStarNode grid start endP bs bc with _ | n
  · rw [hnode] at hfind
    cases hfind
  · rw [hnode] at hfind
    simp only [Option.map_some'] at hfind
    cases hfind
    refine ⟨n, rfl, ?_⟩
    exact (nodeOK_trace grid start endP bs bc n
      (findPathAStarNode_ok grid start endP bs bc n hnode).1).2.2.2.2.2.1

/-- A valid bridged path realizes the goal state of its own bridge count. -/
theorem validPathB_validTo (grid : Grid) (start endP : Point2D) (bs bs2 : Nat)
    (hble : bs ≤ bs2) (p : List Point2D)
    (hv : validPathB grid bs start endP p = true) :
    ValidTo grid start bs2 ((endP.x, endP.y, bridgesOn grid p) : AKey) p := by
  unfold validPathB at hv
  simp only [Bool.and_eq_true, decide_eq_true_eq] at hv
  obtain ⟨⟨⟨⟨h1, h2⟩, h3⟩, h4⟩, h5⟩ := hv
  exact ⟨h1, h2, h3, h4, rfl, by show bridgesOn grid p ≤ bs2; omega⟩

/-- Validity is monotone in the bridge budget. -/
theorem validPathB_mono (grid : Grid) (b1 b2 : Nat) (hb : b1 ≤ b2)
    (start endP : Point2D) (p : List Point2D)
    (h : validPathB grid b1 start endP p = true) :
    validPathB grid b2 start endP p = true := by
  unfold validPathB at h ⊢
  simp only [Bool.and_eq_true, decide_eq_true_eq] at h ⊢
  obtain ⟨⟨⟨⟨h1, h2⟩, h3⟩, h4⟩, h5⟩ := h
  exact ⟨⟨⟨⟨h1, h2⟩, h3⟩, h4⟩, by omega⟩

/-- Path-level optimality: under the consistency condition, a returned path
costs no more than any valid bridged path. -/
theorem findPathAStar_opt (grid : Grid) (start endP : Point2D) (bs bc : Nat)
    (Hc : bs = 0 ∨ 1 ≤ bc) (p q : List Point2D)
    (hfind : findPathAStar grid start endP bs bc = some p)
    (hq : validPathB grid bs start endP q = true) :
    pathCost grid bc p ≤ pathCost grid bc q := by
  obtain ⟨n, hnode, hcost⟩ := found_path_gcost grid start endP bs bc p hfind
  have hvq := validPathB_validTo grid start endP bs bs (Nat.le_refl _) q hq
  have hopt := (findPathAStarNode_main grid start endP bs bc).1 n hnode Hc
    ((endP.x, endP.y, bridgesOn grid q) : AKey) q rfl hvq
  omega

/-- Path-level completeness: `none` exactly when no valid bridged path
exists. -/
theorem findPathAStar_complete (grid : Grid) (start endP : Point2D) (bs bc : Nat) :
    findPathAStar grid start endP bs bc = none ↔
      ¬ ∃ q, validPathB grid bs start endP q = true := by
  constructor
  · intro hn hex
    obtain ⟨q, hq⟩ := hex
    have hnode : findPathAStarNode grid start endP bs bc = none := by
      unfold findPathAStar at hn
      rcases hh : findPathAStarNode grid start endP bs bc with _ | n
      · rfl
      · rw [hh] at hn
        cases hn
    have hvq := validPathB_validTo grid start endP bs bs (Nat.le_refl _) q hq
    exact (findPathAStarNode_main grid start endP bs bc).2 hnode
      ((endP.x, endP.y, bridgesOn grid q) : AKey) q rfl hvq
  · intro hne
    rcases hf : findPathAStar grid start endP bs bc with _ | p
    · rfl
    · exact absurd ⟨p, found_path_validB grid start endP bs bc p hf⟩ hne

theorem sum_map_one {α : Type} (f : α → Nat) :
    ∀ l : List α, (∀ x ∈ l, f x = 1) → (l.map f).sum = l.length
  | [], _ => rfl
  | a :: t, h => by
    simp only [List.map_cons, List.sum_cons, List.length_cons,
      h a (List.mem_cons_self _ _),
      sum_map_one f t (fun x hx => h x (List.mem_cons_of_mem _ hx))]
    omega

/-- At budget 0 every valid path is purely walkable, so its cost is its
length minus one (for any bridge cost). -/
theorem cost_len_budget0 (grid : Grid) (bc : Nat) (start endP : Point2D)
    (q : List Point2D) (hq : validPathB grid 0 start endP q = true) :
    pathCost grid bc q + 1 = q.length := by
  unfold validPathB at hq
  simp only [Bool.and_eq_true, decide_eq_true_eq] at hq
  obtain ⟨⟨⟨⟨h1, _⟩, _⟩, _⟩, h5⟩ := hq
  have hz : (q.drop 1).countP (fun r => ! walkableAt grid r.x r.y) = 0 := by
    unfold bridgesOn at h5
    omega
  have hall : ∀ r ∈ q.drop 1, stepPrice grid bc r = 1 := by
    intro r hr
    have hw := List.countP_eq_zero.mp hz r hr
    simp only [Bool.not_eq_eq_eq_not, Bool.not_true] at hw
    unfold stepPrice
    rw [if_pos (by simpa using hw)]
  have hsum : pathCost grid bc q = (q.drop 1).length := by
    unfold pathCost
    exact sum_map_one (stepPrice grid bc) (q.drop 1) hall
  have hqne : q ≠ [] := by
    intro hnil
    rw [hnil] at h1
    cases h1
  have hlq : 1 ≤ q.length := by
    cases q
    · exact absurd rfl hqne
    · simp
  rw [hsum, List.length_drop]
  omega

/-- C2: with `bridge_budget = 0`, whenever the goal is reachable from the
start through walkable cells, `findPathAStar` succeeds and the returned
path is a valid walkable path of minimal length — i.e. its length is the
true 4-connected shortest-path distance plus one (inclusive endpoints); and
on the concrete 5×5 all-walkable grid from `(0,0)` to `(4,4)` the returned
path has length 9 with `x + y` increasing by one at every step. -/
theorem findPathAStar_shortest_no_bridging :
    (∀ (grid : Grid) (start endP : Point2D),
      (∃ q, validPathB grid 0 start endP q = true) →
      ∃ p, findPathAStar grid start endP 0 0 = some p ∧
        validPathB grid 0 start endP p = true ∧
        ∀ q, validPathB grid 0 start endP q = true → p.length ≤ q.length) ∧
    (∃ p, findPathAStar openGrid5 ⟨0, 0⟩ ⟨4, 4⟩ 0 0 = some p ∧ p.length = 9 ∧
      monoXYB p = true) := by
  constructor
  · intro grid start endP hreach
    rcases hf : findPathAStar grid start endP 0 0 with _ | p
    · exact absurd hreach ((findPathAStar_complete grid start endP 0 0).mp hf)
    · refine ⟨p, rfl, found_path_validB grid start endP 0 0 p hf, ?_⟩
      intro q hq
      have hopt := findPathAStar_opt grid start endP 0 0 (Or.inl rfl) p q hf hq
      have hlp := cost_len_budget0 grid 0 start endP p
        (found_path_validB grid start endP 0 0 p hf)
      have hlq := cost_len_budget0 grid 0 start endP q hq
      omega
  · exact ⟨[⟨0, 0⟩, ⟨1, 0⟩, ⟨1, 1⟩, ⟨1, 2⟩, ⟨1, 3⟩, ⟨1, 4⟩, ⟨2, 4⟩, ⟨3, 4⟩, ⟨4, 4⟩],
      by rfl, by rfl, by rfl⟩

/-- Witness for C2's general conjunct on the 2×1 all-walkable grid: the
hypothesis (reachability through walkable cells) is discharged with the
explicit two-cell path. -/
theorem findPathAStar_shortest_witness :
    ∃ p, findPathAStar rowGrid2 ⟨0, 0⟩ ⟨1, 0⟩ 0 0 = some p ∧
      validPathB rowGrid2 0 ⟨0, 0⟩ ⟨1, 0⟩ p = true ∧
      ∀ q, validPathB rowGrid2 0 ⟨0, 0⟩ ⟨1, 0⟩ q = true → p.length ≤ q.length :=
  findPathAStar_shortest_no_bridging.1 rowGrid2 ⟨0, 0⟩ ⟨1, 0⟩
    ⟨[⟨0, 0⟩, ⟨1, 0⟩], by decide⟩

/-- C3 (amended): for `bridge_cost ≥ 1` the achieved path cost is monotone
non-increasing in the bridge budget: whenever the search succeeds with
budgets `b1 ≤ b2`, the cost of the budget-`b2` path is at most the cost of
the budget-`b1` path.  (With `bridge_cost = 0` the Manhattan heuristic
overestimates across free bridge steps and monotonicity fails, see the
counterexample.) -/
theorem findPathAStar_budget_monotone_of_cost_pos (grid : Grid)
    (start endP : Point2D) (b1 b2 bc : Nat) (hbc : 1 ≤ bc) (hb : b1 ≤ b2)
    (p1 p2 : List Point2D)
    (h1 : findPathAStar grid start endP b1 bc = some p1)
    (h2 : findPathAStar grid start endP b2 bc = some p2) :
    pathCost grid bc p2 ≤ pathCost grid bc p1 := by
  have hv1 := found_path_validB grid start endP b1 bc p1 h1
  have hv2 := validPathB_mono grid b1 b2 hb start endP p1 hv1
  exact findPathAStar_opt grid start endP b2 bc (Or.inr hbc) p2 p1 h2 hv2

/-- Witness for C3's amended statement on the wall grid with
`bridge_cost = 5` and budgets 1 and 2 (both searches return the same
3-cell path of cost 6). -/
theorem findPathAStar_budget_monotone_witness :
    pathCost wallGrid 5 [⟨0, 0⟩, ⟨1, 0⟩, ⟨2, 0⟩] ≤
      pathCost wallGrid 5 [⟨0, 0⟩, ⟨1, 0⟩, ⟨2, 0⟩] :=
  findPathAStar_budget_monotone_of_cost_pos wallGrid ⟨0, 0⟩ ⟨2, 0⟩ 1 2 5
    (by decide) (by decide) [⟨0, 0⟩, ⟨1, 0⟩, ⟨2, 0⟩] [⟨0, 0⟩, ⟨1, 0⟩, ⟨2, 0⟩]
    (by rfl) (by rfl)

/-- C6: on the concrete walled 1×3 grid with budget 0 the search returns
`none`; and in general `findPathAStar` returns `none` exactly when no valid
bridged path exists (the open set is exhausted without reaching the goal) —
unreachability is signalled only through the `Option` result. -/
theorem findPathAStar_none_iff_unreachable :
    findPathAStar wallGrid ⟨0, 0⟩ ⟨2, 0⟩ 0 0 = none ∧
    ∀ (grid : Grid) (start endP : Point2D) (bs bc : Nat),
      findPathAStar grid start endP bs bc = none ↔
        ¬ ∃ q, validPathB grid bs start endP q = true :=
  ⟨by rfl, fun grid start endP bs bc => findPathAStar_complete grid start endP bs bc⟩

end TerrainPath
